import Mathlib

/-!
Verification of the customer-churn pipeline core against its specification.

The development shallowly embeds the Python modules of the repository:

* `src/validation/data_validation.py`  (`find_latest_file`, `validate_data`)
* `src/preparation/data_preparation.py` (`find_latest_file`, `remove_outliers_iqr`, `prepare_data`)
* `src/storage/raw_data_storage.py`    (`partition_raw_data`)
* `src/ingestion/data_ingestion.py`    (`store_data`)
* `src/model/model_building.py`        (`train_and_evaluate_model`, model selection)

Pure data transformations become Lean functions; filesystem-dependent code is
modelled by passing the relevant filesystem observations (directory walks,
folder listings, file stores) explicitly.  Machine floats are modelled by
exact rationals; fallible operations return `Option`.

All rational arithmetic uses `Q`, unreduced integer fractions compared by
cross-multiplication, so that every definition evaluates inside the kernel on
concrete inputs.  Strings are manipulated through their character lists for
the same reason.
-/

namespace Churn

/-- Exact rational number as an unreduced fraction.  All values built by the
embedding keep `den` positive.  Equality and order are by cross-multiplication,
so the representation is never normalised (no gcd needed). -/
structure Q where
  num : Int
  den : Int
deriving Repr

/-- Value equality of fractions (cross multiplication). -/
def qeq (a b : Q) : Bool := a.num * b.den == b.num * a.den

/-- Order on fractions with positive denominators (cross multiplication). -/
def qle (a b : Q) : Bool := decide (a.num * b.den ≤ b.num * a.den)

/-- Strict order on fractions with positive denominators. -/
def qlt (a b : Q) : Bool := decide (a.num * b.den < b.num * a.den)

/-- Embed an integer. -/
def qint (n : Int) : Q := ⟨n, 1⟩

/-- Embed a natural number. -/
def qnat (n : Nat) : Q := ⟨(n : Int), 1⟩

/-- Addition of fractions. -/
def qadd (a b : Q) : Q := ⟨a.num * b.den + b.num * a.den, a.den * b.den⟩

/-- Subtraction of fractions. -/
def qsub (a b : Q) : Q := ⟨a.num * b.den - b.num * a.den, a.den * b.den⟩

/-- Multiplication of fractions. -/
def qmul (a b : Q) : Q := ⟨a.num * b.num, a.den * b.den⟩

/-- Division of fractions; keeps the denominator positive when the divisor is
nonzero with positive denominator.  Division by zero is never reached by the
embedded code (every division site is guarded), matching the source. -/
def qdiv (a b : Q) : Q :=
  if b.num < 0 then ⟨-(a.num * b.den), a.den * (-b.num)⟩
  else ⟨a.num * b.den, a.den * b.num⟩

/-- Sum of a list of fractions. -/
def qsum (l : List Q) : Q := l.foldr qadd (qint 0)

/-- Test for the value zero. -/
def qisZero (a : Q) : Bool := a.num == 0

/-- Lower-case a character list; models Python `str.lower()` on the ASCII
file names the pipeline manipulates. -/
def lowerChars (l : List Char) : List Char := l.map Char.toLower

/-- Suffix test on character lists; models Python `str.endswith`. -/
def listEndsWith (l s : List Char) : Bool := l.drop (l.length - s.length) == s

/-- Test whether a character list starts with a given character list; models
Python `str.startswith`. -/
def listStartsWith (l s : List Char) : Bool := l.take s.length == s

/-- ASCII decimal digit test; models `\d` of the source's regular
expression on the ASCII file names in scope. -/
def isDigitCh (c : Char) : Bool := decide ('0' ≤ c) && decide (c ≤ '9')

/-- Code-point lexicographic strict order on character lists; models Python
string comparison, used for sorted category levels and modes. -/
def listLexLt : List Char → List Char → Bool
  | [], [] => false
  | [], _ :: _ => true
  | _ :: _, [] => false
  | a :: as, b :: bs =>
      if a.toNat < b.toNat then true
      else if b.toNat < a.toNat then false
      else listLexLt as bs

/-- Strict order on strings via their character lists. -/
def strLt (a b : String) : Bool := listLexLt a.data b.data

/-- Insert into a string list sorted by `strLt`. -/
def insertSorted (s : String) : List String → List String
  | [] => [s]
  | t :: ts => if strLt s t then s :: t :: ts else t :: insertSorted s ts

/-- Insertion sort of strings by code-point order; models Python
`sorted` on the string values in scope. -/
def sortStrings : List String → List String
  | [] => []
  | s :: ss => insertSorted s (sortStrings ss)

/-- First-occurrence deduplication of strings; models the distinct values of
a pandas column (`Series.unique` order is irrelevant here because the result
is always sorted afterwards). -/
def distinctStrings (l : List String) : List String :=
  l.foldl (fun acc s => if acc.contains s then acc else acc ++ [s]) []

end Churn

namespace Churn

/-!
### Latest-artifact resolver

`find_latest_file` appears twice in the repository, in
`src/validation/data_validation.py` (lines 7–30) and in
`src/preparation/data_preparation.py` (lines 11–35).  Both recursively walk a
root directory and keep the file with the largest modification time, with the
loop

    latest_time = 0
    latest_file = None
    for root, _, files in os.walk(root_dir):
        for file in files:
            ... if file.lower().endswith(extension):
                    file_path = os.path.join(root, file)
                    mtime = os.path.getmtime(file_path)
                    if mtime > latest_time:
                        latest_time = mtime
                        latest_file = file_path
    return latest_file

The preparation variant additionally skips files whose name starts with `'.'`;
the validation variant has no such filter.  We model the flattened `os.walk`
enumeration as a list of `FileRec` and the loop as `findLoop`, shared by both
variants, each keeping its own match test.
-/

/-- One file produced by the `os.walk` traversal: the directory that contains
it, its bare name, and its last-modification time in whole seconds
(`os.path.getmtime`). -/
structure FileRec where
  dir : String
  name : String
  mtime : Nat
deriving DecidableEq, Repr

/-- Model of `os.path.join(root, file)` for the relative paths the walk
produces. -/
def joinPath (root file : String) : String := root ++ "/" ++ file

/-- The shared accumulator loop of both `find_latest_file` variants, carrying
`(latest_time, latest_file)` through the enumeration. -/
def findLoop (m : FileRec → Bool) : List FileRec → Nat → Option String → Option String
  | [], _, best => best
  | e :: rest, latestTime, best =>
      if m e then
        if latestTime < e.mtime then
          findLoop m rest e.mtime (some (joinPath e.dir e.name))
        else findLoop m rest latestTime best
      else findLoop m rest latestTime best

/-- A root directory as observed by `os.walk`: `none` models a root that does
not exist, for which `os.walk` silently yields no entries at all; `some l`
models an existing root whose recursive traversal enumerates `l`. -/
abbrev WalkRoot : Type := Option (List FileRec)

/-- The file enumeration `os.walk` yields for a root. -/
def walkFiles : WalkRoot → List FileRec
  | none => []
  | some l => l

end Churn

namespace Churn.DataValidation

/-- Match test of the validation-module resolver:
`file.lower().endswith(extension)`.  Note there is no hidden-file exclusion in
this variant (`src/validation/data_validation.py` lines 22–24). -/
def fileMatches (ext : String) (e : FileRec) : Bool :=
  listEndsWith (lowerChars e.name.data) ext.data

/-- The resolver of `src/validation/data_validation.py` (lines 7–30) on a
given walk enumeration. -/
def find_latest_file (walk : List FileRec) (ext : String) : Option String :=
  findLoop (fileMatches ext) walk 0 none

/-- The same resolver applied to a root directory, including the behaviour of
`os.walk` on a root that does not exist. -/
def find_latest_file_in (root : WalkRoot) (ext : String) : Option String :=
  find_latest_file (walkFiles root) ext

end Churn.DataValidation

namespace Churn.DataPreparation

/-- Match test of the preparation-module resolver: skip names that start with
`'.'` (hidden/system files), then `file.lower().endswith(extension)`
(`src/preparation/data_preparation.py` lines 26–29). -/
def fileMatches (ext : String) (e : FileRec) : Bool :=
  (!listStartsWith e.name.data ".".data) && listEndsWith (lowerChars e.name.data) ext.data

/-- The resolver of `src/preparation/data_preparation.py` (lines 11–35) on a
given walk enumeration. -/
def find_latest_file (walk : List FileRec) (ext : String) : Option String :=
  findLoop (fileMatches ext) walk 0 none

/-- The same resolver applied to a root directory, including the behaviour of
`os.walk` on a root that does not exist. -/
def find_latest_file_in (root : WalkRoot) (ext : String) : Option String :=
  find_latest_file (walkFiles root) ext

end Churn.DataPreparation

namespace Churn

/-- What a run of the resolver loop guarantees: `none` exactly when no file
passes the match test (given positive modification times), and any returned
path belongs to a matching file of maximal modification time. -/
def resolverSpec (m : FileRec → Bool) (l : List FileRec) (r : Option String) : Prop :=
  (r = none ↔ ∀ e ∈ l, ¬(m e = true ∧ 0 < e.mtime)) ∧
  (∀ p, r = some p → ∃ e ∈ l, m e = true ∧ p = joinPath e.dir e.name ∧
      ∀ e' ∈ l, m e' = true → e'.mtime ≤ e.mtime)

/-- Invariant of the resolver loop: either no enumerated file beats the
accumulator and the accumulator is returned, or the result is the path of a
matching file of maximal modification time that beats the accumulator. -/
theorem findLoop_spec (m : FileRec → Bool) (l : List FileRec) (lt : Nat) (best : Option String) :
    (findLoop m l lt best = best ∧ ∀ e ∈ l, ¬(m e = true ∧ lt < e.mtime)) ∨
    (∃ e ∈ l, m e = true ∧ lt < e.mtime ∧
      findLoop m l lt best = some (joinPath e.dir e.name) ∧
      ∀ e' ∈ l, m e' = true → e'.mtime ≤ e.mtime) := by
  induction l generalizing lt best with
  | nil => exact Or.inl ⟨rfl, by simp⟩
  | cons e rest ih =>
    by_cases hm : m e = true
    · by_cases hlt : lt < e.mtime
      · have step : findLoop m (e :: rest) lt best
            = findLoop m rest e.mtime (some (joinPath e.dir e.name)) := by
          simp [findLoop, hm, hlt]
        rcases ih e.mtime (some (joinPath e.dir e.name)) with ⟨heq, hnone⟩ | ⟨e₂, he₂, hm₂, hlt₂, heq₂, hmax₂⟩
        · refine Or.inr ⟨e, by simp, hm, hlt, by rw [step, heq], ?_⟩
          intro e' he' hm'
          rcases List.mem_cons.mp he' with h | h
          · subst h; exact le_rfl
          · by_contra hgt
            exact hnone e' h ⟨hm', lt_of_not_ge hgt⟩
        · refine Or.inr ⟨e₂, List.mem_cons_of_mem _ he₂, hm₂, lt_trans hlt hlt₂, by rw [step, heq₂], ?_⟩
          intro e' he' hm'
          rcases List.mem_cons.mp he' with h | h
          · subst h; exact le_of_lt hlt₂
          · exact hmax₂ e' h hm'
      · have step : findLoop m (e :: rest) lt best = findLoop m rest lt best := by
          simp [findLoop, hm, hlt]
        rcases ih lt best with ⟨heq, hnone⟩ | ⟨e₂, he₂, hm₂, hlt₂, heq₂, hmax₂⟩
        · refine Or.inl ⟨by rw [step, heq], ?_⟩
          intro e' he'
          rcases List.mem_cons.mp he' with h | h
          · subst h; exact fun hc => hlt hc.2
          · exact hnone e' h
        · refine Or.inr ⟨e₂, List.mem_cons_of_mem _ he₂, hm₂, hlt₂, by rw [step, heq₂], ?_⟩
          intro e' he' hm'
          rcases List.mem_cons.mp he' with h | h
          · subst h
            exact le_trans (le_of_not_gt hlt) (le_of_lt hlt₂)
          · exact hmax₂ e' h hm'
    · have step : findLoop m (e :: rest) lt best = findLoop m rest lt best := by
        simp [findLoop, hm]
      rcases ih lt best with ⟨heq, hnone⟩ | ⟨e₂, he₂, hm₂, hlt₂, heq₂, hmax₂⟩
      · refine Or.inl ⟨by rw [step, heq], ?_⟩
        intro e' he'
        rcases List.mem_cons.mp he' with h | h
        · subst h; exact fun hc => hm hc.1
        · exact hnone e' h
      · refine Or.inr ⟨e₂, List.mem_cons_of_mem _ he₂, hm₂, hlt₂, by rw [step, heq₂], ?_⟩
        intro e' he' hm'
        rcases List.mem_cons.mp he' with h | h
        · subst h; exact absurd hm' hm
        · exact hmax₂ e' h hm'

/-- The resolver loop started on the empty accumulator meets `resolverSpec`. -/
theorem findLoop_resolverSpec (m : FileRec → Bool) (l : List FileRec) :
    resolverSpec m l (findLoop m l 0 none) := by
  rcases findLoop_spec m l 0 none with ⟨heq, hnone⟩ | ⟨e, he, hm, hlt, heq, hmax⟩
  · constructor
    · constructor
      · intro _ e' he' hc
        exact hnone e' he' ⟨hc.1, hc.2⟩
      · intro _; exact heq
    · intro p hp
      rw [heq] at hp
      exact absurd hp (by simp)
  · constructor
    · constructor
      · intro hnone'
        rw [heq] at hnone'
        exact absurd hnone' (by simp)
      · intro hall
        exact absurd ⟨hm, hlt⟩ (hall e he)
    · intro p hp
      rw [heq] at hp
      refine ⟨e, he, hm, by injection hp with h; exact h.symm, hmax⟩

end Churn

namespace Churn

/-- Runs of the resolver loop on permuted enumerations agree, provided the
matching files have pairwise distinct (and positive) modification times. -/
theorem findLoop_perm_eq (m : FileRec → Bool) (l₁ l₂ : List FileRec)
    (hperm : l₁.Perm l₂)
    (hpos : ∀ e ∈ l₁, 0 < e.mtime)
    (hinj : ∀ e ∈ l₁, ∀ e' ∈ l₁, m e = true → m e' = true → e.mtime = e'.mtime → e = e') :
    findLoop m l₁ 0 none = findLoop m l₂ 0 none := by
  obtain ⟨hn₁, hs₁⟩ := findLoop_resolverSpec m l₁
  obtain ⟨hn₂, hs₂⟩ := findLoop_resolverSpec m l₂
  cases hr₁ : findLoop m l₁ 0 none with
  | none =>
    have hall := hn₁.mp hr₁
    have : findLoop m l₂ 0 none = none :=
      hn₂.mpr (fun e he => hall e (hperm.mem_iff.mpr he))
    rw [this]
  | some p₁ =>
    obtain ⟨e₁, he₁, hm₁, hp₁, hmax₁⟩ := hs₁ p₁ hr₁
    cases hr₂ : findLoop m l₂ 0 none with
    | none =>
      have hall := hn₂.mp hr₂
      exact absurd ⟨hm₁, hpos e₁ he₁⟩ (hall e₁ (hperm.mem_iff.mp he₁))
    | some p₂ =>
      obtain ⟨e₂, he₂, hm₂, hp₂, hmax₂⟩ := hs₂ p₂ hr₂
      have he₂' : e₂ ∈ l₁ := hperm.mem_iff.mpr he₂
      have h₁₂ : e₁.mtime ≤ e₂.mtime := hmax₂ e₁ (hperm.mem_iff.mp he₁) hm₁
      have h₂₁ : e₂.mtime ≤ e₁.mtime := hmax₁ e₂ he₂' hm₂
      have : e₁ = e₂ := hinj e₁ he₁ e₂ he₂' hm₁ hm₂ (le_antisymm h₁₂ h₂₁)
      rw [hp₁, hp₂, this]

end Churn

open Churn in
/-- **C1** (counterexample).  The claim states that the latest-artifact
resolver always returns a *non-hidden* file.  The validation-module variant
has no hidden-file filter: on a walk containing the hidden file
`.secret.csv` (mtime 10) and the visible `a.csv` (mtime 5), it returns the
hidden file. -/
theorem validation_resolver_returns_hidden_file :
    DataValidation.find_latest_file
        [⟨"root", ".secret.csv", 10⟩, ⟨"root", "a.csv", 5⟩] ".csv"
      = some "root/.secret.csv" ∧
    listStartsWith ".secret.csv".data ".".data = true := by
  constructor
  · decide
  · decide

open Churn in
/-- **C1** (amended).  Given positive modification times, each
`find_latest_file` variant returns `None` exactly when no enumerated file
passes its match test, and otherwise the path of a matching file of maximal
modification time.  The preparation variant's match test excludes hidden
files; the validation variant's does not (its match is only the
case-insensitive extension test). -/
theorem latest_file_resolver_returns_max_mtime (l : List FileRec) (ext : String)
    (hpos : ∀ e ∈ l, 0 < e.mtime) :
    (DataValidation.find_latest_file l ext = none ↔
        ∀ e ∈ l, DataValidation.fileMatches ext e = false) ∧
    (∀ p, DataValidation.find_latest_file l ext = some p →
        ∃ e ∈ l, DataValidation.fileMatches ext e = true ∧ p = joinPath e.dir e.name ∧
          ∀ e' ∈ l, DataValidation.fileMatches ext e' = true → e'.mtime ≤ e.mtime) ∧
    (DataPreparation.find_latest_file l ext = none ↔
        ∀ e ∈ l, DataPreparation.fileMatches ext e = false) ∧
    (∀ p, DataPreparation.find_latest_file l ext = some p →
        ∃ e ∈ l, DataPreparation.fileMatches ext e = true ∧ p = joinPath e.dir e.name ∧
          ∀ e' ∈ l, DataPreparation.fileMatches ext e' = true → e'.mtime ≤ e.mtime) ∧
    (∀ e ∈ l, DataPreparation.fileMatches ext e = true →
        listStartsWith e.name.data ".".data = false) := by
  obtain ⟨hnV, hsV⟩ := findLoop_resolverSpec (DataValidation.fileMatches ext) l
  obtain ⟨hnP, hsP⟩ := findLoop_resolverSpec (DataPreparation.fileMatches ext) l
  refine ⟨⟨fun h e he => ?_,
        fun h => hnV.mpr fun e he hc => by rw [h e he] at hc; exact Bool.false_ne_true hc.1⟩,
      hsV, ⟨fun h e he => ?_,
        fun h => hnP.mpr fun e he hc => by rw [h e he] at hc; exact Bool.false_ne_true hc.1⟩,
      hsP, fun e _ hm => ?_⟩
  · have := hnV.mp h e he
    by_contra hc
    exact this ⟨by simpa using hc, hpos e he⟩
  · have := hnP.mp h e he
    by_contra hc
    exact this ⟨by simpa using hc, hpos e he⟩
  · unfold DataPreparation.fileMatches at hm
    rw [Bool.and_eq_true] at hm
    simpa using hm.1

open Churn in
/-- Instantiation of the amended resolver theorem at a concrete enumeration
with positive modification times. -/
theorem latest_file_resolver_returns_max_mtime_witness :
    (∀ e ∈ [(⟨"d", "b.csv", 7⟩ : FileRec), ⟨"d", "a.csv", 3⟩], 0 < e.mtime) ∧
    (∀ p, DataValidation.find_latest_file
        [(⟨"d", "b.csv", 7⟩ : FileRec), ⟨"d", "a.csv", 3⟩] ".csv" = some p →
      ∃ e ∈ [(⟨"d", "b.csv", 7⟩ : FileRec), ⟨"d", "a.csv", 3⟩],
        DataValidation.fileMatches ".csv" e = true ∧ p = joinPath e.dir e.name ∧
        ∀ e' ∈ [(⟨"d", "b.csv", 7⟩ : FileRec), ⟨"d", "a.csv", 3⟩],
          DataValidation.fileMatches ".csv" e' = true → e'.mtime ≤ e.mtime) :=
  ⟨by decide,
    (latest_file_resolver_returns_max_mtime
      [⟨"d", "b.csv", 7⟩, ⟨"d", "a.csv", 3⟩] ".csv" (by decide)).2.1⟩

open Churn in
/-- **C2** (counterexample).  The claim states that ties in modification time
resolve by a fixed deterministic rule independent of enumeration order.  Two
enumerations of the same two files (both matching, equal mtime 7) return
different paths, so the result does depend on the OS listing order. -/
theorem resolver_tie_depends_on_enumeration_order :
    ([(⟨"r", "a.csv", 7⟩ : FileRec), ⟨"r", "b.csv", 7⟩].Perm
        [⟨"r", "b.csv", 7⟩, ⟨"r", "a.csv", 7⟩]) ∧
    DataPreparation.find_latest_file
        [⟨"r", "a.csv", 7⟩, ⟨"r", "b.csv", 7⟩] ".csv" = some "r/a.csv" ∧
    DataPreparation.find_latest_file
        [⟨"r", "b.csv", 7⟩, ⟨"r", "a.csv", 7⟩] ".csv" = some "r/b.csv" ∧
    ("r/a.csv" : String) ≠ "r/b.csv" := by
  refine ⟨by decide, by decide, by decide, by decide⟩

open Churn in
/-- **C2** (amended).  Both resolver variants are invariant under the
enumeration order whenever the matching files have pairwise distinct
(and positive) modification times; on ties the first maximal file in
enumeration order wins, so order independence fails exactly there. -/
theorem resolver_order_invariant_on_distinct_mtimes (l₁ l₂ : List FileRec) (ext : String)
    (hperm : l₁.Perm l₂)
    (hpos : ∀ e ∈ l₁, 0 < e.mtime)
    (hinjV : ∀ e ∈ l₁, ∀ e' ∈ l₁, DataValidation.fileMatches ext e = true →
        DataValidation.fileMatches ext e' = true → e.mtime = e'.mtime → e = e')
    (hinjP : ∀ e ∈ l₁, ∀ e' ∈ l₁, DataPreparation.fileMatches ext e = true →
        DataPreparation.fileMatches ext e' = true → e.mtime = e'.mtime → e = e') :
    DataValidation.find_latest_file l₁ ext = DataValidation.find_latest_file l₂ ext ∧
    DataPreparation.find_latest_file l₁ ext = DataPreparation.find_latest_file l₂ ext :=
  ⟨findLoop_perm_eq _ l₁ l₂ hperm hpos hinjV,
   findLoop_perm_eq _ l₁ l₂ hperm hpos hinjP⟩

open Churn in
/-- Instantiation of the order-invariance theorem on two orders of a
two-file enumeration with distinct positive modification times. -/
theorem resolver_order_invariant_on_distinct_mtimes_witness :
    DataValidation.find_latest_file
        [(⟨"r", "a.csv", 3⟩ : FileRec), ⟨"r", "b.csv", 9⟩] ".csv"
      = DataValidation.find_latest_file
        [⟨"r", "b.csv", 9⟩, ⟨"r", "a.csv", 3⟩] ".csv" :=
  (resolver_order_invariant_on_distinct_mtimes
    [⟨"r", "a.csv", 3⟩, ⟨"r", "b.csv", 9⟩] [⟨"r", "b.csv", 9⟩, ⟨"r", "a.csv", 3⟩] ".csv"
    (by decide) (by decide) (by decide) (by decide)).1

open Churn in
/-- **C3** (counterexample).  The claim states that a nonexistent root fails
with a `NotFoundError`, distinct from the `None` of an existing empty root.
In the code `os.walk` on a nonexistent root silently yields nothing, so both
resolvers return exactly the same not-found signal `None` for a nonexistent
root as for an existing empty root — no error is ever raised (the functions
are total with codomain `Option`). -/
theorem missing_root_same_as_empty_root :
    DataValidation.find_latest_file_in (none : WalkRoot) ".csv" = none ∧
    DataValidation.find_latest_file_in (some [] : WalkRoot) ".csv" = none ∧
    DataPreparation.find_latest_file_in (none : WalkRoot) ".csv" = none ∧
    DataPreparation.find_latest_file_in (some [] : WalkRoot) ".csv" = none := by
  refine ⟨by decide, by decide, by decide, by decide⟩

open Churn in
/-- **C3** (amended).  For every extension, a nonexistent root directory is
treated exactly like an existing directory with an empty subtree: both
resolver variants return the not-found signal `None`, and no distinct
failure exists. -/
theorem missing_root_returns_not_found (ext : String) :
    DataValidation.find_latest_file_in (none : WalkRoot) ext = none ∧
    DataValidation.find_latest_file_in (some [] : WalkRoot) ext = none ∧
    DataPreparation.find_latest_file_in (none : WalkRoot) ext = none ∧
    DataPreparation.find_latest_file_in (some [] : WalkRoot) ext = none := by
  refine ⟨rfl, rfl, rfl, rfl⟩

namespace Churn

/-!
### Partitioned raw-data storage

`src/storage/raw_data_storage.py` (`partition_raw_data`, lines 6–55) and
`src/ingestion/data_ingestion.py` (`store_data`, lines 34–78) both write files
into a partition tree `storage_root/kaggle/<year>/<month>/<day>/<file>`.
The store is modelled as a list of entries (path below the storage root as a
list of components, plus content); directories are implicit prefixes, so only
regular files are entries.  `shutil.copy` overwrites the destination path.
-/

/-- A stored regular file: its path below the storage root, split into
components, and its content. -/
structure Entry where
  path : List String
  content : String
deriving DecidableEq, Repr

/-- The state of a storage root: the set of regular files below it. -/
abbrev Store : Type := List Entry

/-- The paths present in a store. -/
def pathsOf (st : Store) : List (List String) := st.map (·.path)

/-- Model of `shutil.copy(src, dst)`: the destination path now holds the
copied content, replacing any previous file at exactly that path. -/
def copyTo (st : Store) (p : List String) (c : String) : Store :=
  st.filter (fun e => decide (e.path ≠ p)) ++ [⟨p, c⟩]

/-- A calendar date. -/
structure Date where
  year : Nat
  month : Nat
  day : Nat
deriving DecidableEq, Repr

/-- Civil calendar date from a count of days since 1970-01-01
(Howard Hinnant's `civil_from_days`, restricted to nonnegative epochs). -/
def civilFromDays (z : Nat) : Date :=
  let z' := z + 719468
  let era := z' / 146097
  let doe := z' % 146097
  let yoe := (doe - doe / 1460 + doe / 36524 - doe / 146096) / 365
  let y := yoe + era * 400
  let doy := doe - (365 * yoe + yoe / 4 - yoe / 100)
  let mp := (5 * doy + 2) / 153
  let d := doy - (153 * mp + 2) / 5 + 1
  let m := if mp < 10 then mp + 3 else mp - 9
  ⟨if m ≤ 2 then y + 1 else y, m, d⟩

/-- Model of `datetime.fromtimestamp(mtime)`'s calendar date for an epoch
timestamp in whole seconds (UTC; the timezone offset does not matter to any
claim settled here). -/
def dateOfMtime (mtime : Nat) : Date := civilFromDays (mtime / 86400)

/-- Zero-padded two-digit field of `strftime` (`%m`, `%d`, `%H`, `%M`, `%S`). -/
def pad2 (n : Nat) : String := if n < 10 then "0" ++ toString n else toString n

/-- Zero-padded four-digit year field of `strftime` (`%Y`). -/
def pad4 (n : Nat) : String :=
  if n < 10 then "000" ++ toString n
  else if n < 100 then "00" ++ toString n
  else if n < 1000 then "0" ++ toString n
  else toString n

/-- The `<year>/<month>/<day>` partition components for a date. -/
def datePathOf (dt : Date) : List String := [pad4 dt.year, pad2 dt.month, pad2 dt.day]

/-- Test for `_` followed by eight digits, `_`, six digits and a literal dot
starting at the head of the character list. -/
def tsAt : List Char → Bool
  | '_' :: t =>
      (t.take 8).length == 8 && (t.take 8).all isDigitCh &&
      (match t.drop 8 with
       | '_' :: t3 =>
           (t3.take 6).length == 6 && (t3.take 6).all isDigitCh &&
           (match t3.drop 6 with
            | '.' :: _ => true
            | _ => false)
       | _ => false)
  | _ => false

/-- Scan for the timestamp shape anywhere in a character list. -/
def tsScan : List Char → Bool
  | [] => false
  | c :: rest => tsAt (c :: rest) || tsScan rest

/-- Model of `re.match(r".*_\d{8}_\d{6}\..*$", filename)` of
`src/storage/raw_data_storage.py` line 26: the name contains an underscore,
eight digits, an underscore, six digits and then a dot (file names contain no
newline, so the `.`/`$` subtleties of the regex are irrelevant). -/
def timestampPatternMatch (s : String) : Bool := tsScan s.data

end Churn

namespace Churn.RawDataStorage

/-- One entry of `os.listdir(source_folder)` as observed by
`partition_raw_data`: its name, whether it is a regular file, its
modification time, and its content. -/
structure SrcItem where
  name : String
  isfile : Bool
  mtime : Nat
  content : String
deriving DecidableEq, Repr

/-- `partition_raw_data` of `src/storage/raw_data_storage.py` (lines 6–55):
skip names without the `_YYYYMMDD_HHMMSS.` timestamp shape; for each remaining
regular file, derive year/month/day from the file's *modification time* and
copy it to `kaggle/<year>/<month>/<day>/<name>`.  Directory creation
(`os.makedirs(..., exist_ok=True)`) is implicit in the store model. -/
def partition_raw_data (src : List SrcItem) (st : Store) : Store :=
  src.foldl (fun acc item =>
    if timestampPatternMatch item.name then
      if item.isfile then
        copyTo acc (["kaggle"] ++ datePathOf (dateOfMtime item.mtime) ++ [item.name]) item.content
      else acc
    else acc) st

/-- The destination path `partition_raw_data` uses for a processed item. -/
def destOf (item : SrcItem) : List String :=
  ["kaggle"] ++ datePathOf (dateOfMtime item.mtime) ++ [item.name]

end Churn.RawDataStorage

namespace Churn.DataIngestion

/-- One entry of `os.listdir(raw_folder)` as observed by `store_data`. -/
structure RawItem where
  name : String
  isfile : Bool
  content : String
deriving DecidableEq, Repr

/-- The wall-clock timestamp `datetime.now()` of the run. -/
structure Timestamp where
  year : Nat
  month : Nat
  day : Nat
  hour : Nat
  minute : Nat
  second : Nat
deriving DecidableEq, Repr

/-- `strftime("%Y%m%d_%H%M%S")` of the run timestamp. -/
def timeStr (t : Timestamp) : String :=
  pad4 t.year ++ pad2 t.month ++ pad2 t.day ++ "_" ++ pad2 t.hour ++ pad2 t.minute ++ pad2 t.second

/-- Number of leading `'.'` characters. -/
def leadingDots : List Char → Nat
  | '.' :: rest => 1 + leadingDots rest
  | _ => 0

/-- Index of the last `'.'` in a character list, if any. -/
def lastDotIdx (cs : List Char) : Option Nat :=
  (cs.enum.filter (fun p => p.2 == '.')).getLast?.map (·.1)

/-- Model of `os.path.splitext`: split at the last dot unless every character
before it is a dot (leading dots of a base name never start an extension). -/
def splitext (s : String) : String × String :=
  match lastDotIdx s.data with
  | none => (s, "")
  | some i =>
      if leadingDots s.data < i then (String.mk (s.data.take i), String.mk (s.data.drop i))
      else (s, "")

/-- The renamed file `f"{name}_{time_str}{ext}"` of `store_data` line 68. -/
def newFileName (t : Timestamp) (file : String) : String :=
  (splitext file).1 ++ "_" ++ timeStr t ++ (splitext file).2

/-- The day partition `stored_base_folder/kaggle/<year>/<month>/<day>` that
`store_data` builds from the current timestamp. -/
def targetFolder (t : Timestamp) : List String :=
  ["kaggle", pad4 t.year, pad2 t.month, pad2 t.day]

/-- `store_data` of `src/ingestion/data_ingestion.py` (lines 34–78): copy each
regular file of the raw folder into the current day's partition with the run
timestamp appended to its name, then delete every regular file lying directly
under the stored base folder (path length one). -/
def store_data (raw : List RawItem) (st : Store) (now : Timestamp) : Store :=
  (raw.foldl (fun acc item =>
    if item.isfile then
      copyTo acc (targetFolder now ++ [newFileName now item.name]) item.content
    else acc) st).filter (fun e => decide (e.path.length ≠ 1))

end Churn.DataIngestion

namespace Churn

/-- Membership in the paths of a store after one copy. -/
theorem mem_pathsOf_copyTo (st : Store) (p q : List String) (c : String) :
    q ∈ pathsOf (copyTo st p c) ↔ q = p ∨ q ∈ pathsOf st := by
  constructor
  · intro h
    rcases List.mem_map.mp h with ⟨e, he, rfl⟩
    rcases List.mem_append.mp he with hf | hl
    · exact Or.inr (List.mem_map.mpr ⟨e, (List.mem_filter.mp hf).1, rfl⟩)
    · rcases List.mem_singleton.mp hl with rfl
      exact Or.inl rfl
  · rintro (rfl | hq)
    · exact List.mem_map.mpr ⟨⟨q, c⟩, List.mem_append.mpr (Or.inr (List.mem_singleton.mpr rfl)), rfl⟩
    · rcases List.mem_map.mp hq with ⟨e, he, rfl⟩
      by_cases hep : e.path = p
      · exact List.mem_map.mpr ⟨⟨p, c⟩,
          List.mem_append.mpr (Or.inr (List.mem_singleton.mpr rfl)), hep.symm⟩
      · exact List.mem_map.mpr ⟨e,
          List.mem_append.mpr (Or.inl (List.mem_filter.mpr ⟨he, by simpa using hep⟩)), rfl⟩

/-- A generic copy loop: each element optionally contributes one destination
path and content. -/
def copyFold (f : α → Option (List String × String)) (l : List α) (st : Store) : Store :=
  l.foldl (fun acc a =>
    match f a with
    | some pc => copyTo acc pc.1 pc.2
    | none => acc) st

/-- Path membership after a generic copy loop. -/
theorem mem_pathsOf_copyFold (f : α → Option (List String × String))
    (l : List α) (st : Store) (q : List String) :
    q ∈ pathsOf (copyFold f l st) ↔
      q ∈ pathsOf st ∨ ∃ a ∈ l, ∃ c, f a = some (q, c) := by
  induction l generalizing st with
  | nil => simp [copyFold]
  | cons a rest ih =>
    have step : copyFold f (a :: rest) st =
        copyFold f rest (match f a with
          | some pc => copyTo st pc.1 pc.2
          | none => st) := by
      cases hfa : f a <;> simp [copyFold, hfa]
    rw [step]
    cases hfa : f a with
    | none =>
      simp only [hfa]
      rw [ih]
      constructor
      · rintro (h | ⟨b, hb, hc⟩)
        · exact Or.inl h
        · exact Or.inr ⟨b, List.mem_cons_of_mem _ hb, hc⟩
      · rintro (h | ⟨b, hb, c, hc⟩)
        · exact Or.inl h
        · rcases List.mem_cons.mp hb with rfl | hb'
          · rw [hfa] at hc; cases hc
          · exact Or.inr ⟨b, hb', c, hc⟩
    | some pc =>
      simp only [hfa]
      rw [ih, mem_pathsOf_copyTo]
      constructor
      · rintro ((rfl | h) | ⟨b, hb, hc⟩)
        · exact Or.inr ⟨a, List.mem_cons_self a rest, pc.2, by rw [hfa]⟩
        · exact Or.inl h
        · exact Or.inr ⟨b, List.mem_cons_of_mem _ hb, hc⟩
      · rintro (h | ⟨b, hb, c, hc⟩)
        · exact Or.inl (Or.inr h)
        · rcases List.mem_cons.mp hb with rfl | hb'
          · rw [hfa] at hc
            injection hc with hpc
            exact Or.inl (Or.inl (by rw [hpc]))
          · exact Or.inr ⟨b, hb', c, hc⟩

/-- `partition_raw_data` is the generic copy loop applied to its per-item
destination rule. -/
theorem partition_raw_data_eq_copyFold (src : List RawDataStorage.SrcItem) (st : Store) :
    RawDataStorage.partition_raw_data src st =
      copyFold (fun item =>
        if timestampPatternMatch item.name && item.isfile then
          some (RawDataStorage.destOf item, item.content)
        else none) src st := by
  unfold RawDataStorage.partition_raw_data copyFold
  induction src generalizing st with
  | nil => rfl
  | cons a rest ih =>
    simp only [List.foldl_cons]
    rw [ih]
    congr 1
    by_cases h1 : timestampPatternMatch a.name
    · by_cases h2 : a.isfile
      · simp [h1, h2, RawDataStorage.destOf]
      · simp [h1, h2]
    · simp [h1]

/-- `store_data`'s copy phase is the generic copy loop applied to its
per-item destination rule. -/
theorem store_data_eq_copyFold (raw : List DataIngestion.RawItem) (st : Store)
    (now : DataIngestion.Timestamp) :
    DataIngestion.store_data raw st now =
      (copyFold (fun item =>
          if item.isfile then
            some (DataIngestion.targetFolder now ++ [DataIngestion.newFileName now item.name],
              item.content)
          else none) raw st).filter (fun e => decide (e.path.length ≠ 1)) := by
  unfold DataIngestion.store_data copyFold
  congr 1
  induction raw generalizing st with
  | nil => rfl
  | cons a rest ih =>
    simp only [List.foldl_cons]
    rw [ih]
    congr 1
    by_cases h : a.isfile <;> simp [h]

end Churn

namespace Churn

/-- Path membership is preserved by the top-level cleanup filter exactly for
paths of length other than one. -/
theorem mem_pathsOf_filter_len (st : Store) (p : List String) :
    p ∈ pathsOf (st.filter (fun e => decide (e.path.length ≠ 1))) ↔
      p ∈ pathsOf st ∧ p.length ≠ 1 := by
  constructor
  · intro h
    rcases List.mem_map.mp h with ⟨e, he, rfl⟩
    obtain ⟨he', hlen⟩ := List.mem_filter.mp he
    exact ⟨List.mem_map.mpr ⟨e, he', rfl⟩, by simpa using hlen⟩
  · rintro ⟨h, hlen⟩
    rcases List.mem_map.mp h with ⟨e, he, rfl⟩
    exact List.mem_map.mpr ⟨e, List.mem_filter.mpr ⟨he, by simpa using hlen⟩, rfl⟩

end Churn

open Churn in
/-- **C4** (confirmed).  Neither partition writer ever deletes a file that was
already inside a partition directory `source/year/month/day`: every stored
path of partition depth five present before a run of `partition_raw_data` or
of `store_data` is still present afterwards (copies only add or overwrite
paths; `store_data`'s cleanup removes only top-level files). -/
theorem partition_membership_only_grows
    (src : List RawDataStorage.SrcItem) (raw : List DataIngestion.RawItem)
    (st : Store) (now : DataIngestion.Timestamp) (p : List String)
    (hp : p.length = 5) (hmem : p ∈ pathsOf st) :
    p ∈ pathsOf (RawDataStorage.partition_raw_data src st) ∧
    p ∈ pathsOf (DataIngestion.store_data raw st now) := by
  constructor
  · rw [partition_raw_data_eq_copyFold, mem_pathsOf_copyFold]
    exact Or.inl hmem
  · rw [store_data_eq_copyFold, mem_pathsOf_filter_len]
    refine ⟨(mem_pathsOf_copyFold _ _ _ _).mpr (Or.inl hmem), by rw [hp]; decide⟩

open Churn in
/-- Instantiation of the membership-growth theorem at a concrete prior state
holding one partition member. -/
theorem partition_membership_only_grows_witness :
    (["kaggle", "2024", "05", "06", "f.csv"] : List String).length = 5 ∧
    ["kaggle", "2024", "05", "06", "f.csv"] ∈
      pathsOf [(⟨["kaggle", "2024", "05", "06", "f.csv"], "x"⟩ : Entry)] ∧
    ["kaggle", "2024", "05", "06", "f.csv"] ∈
      pathsOf (RawDataStorage.partition_raw_data
        [⟨"d_20240101_010101.csv", true, 0, "y"⟩]
        [⟨["kaggle", "2024", "05", "06", "f.csv"], "x"⟩]) ∧
    ["kaggle", "2024", "05", "06", "f.csv"] ∈
      pathsOf (DataIngestion.store_data [⟨"g.csv", true, "z"⟩]
        [⟨["kaggle", "2024", "05", "06", "f.csv"], "x"⟩] ⟨2025, 1, 2, 3, 4, 5⟩) :=
  ⟨by decide, by decide,
    (partition_membership_only_grows
      [⟨"d_20240101_010101.csv", true, 0, "y"⟩] [⟨"g.csv", true, "z"⟩]
      [⟨["kaggle", "2024", "05", "06", "f.csv"], "x"⟩] ⟨2025, 1, 2, 3, 4, 5⟩
      ["kaggle", "2024", "05", "06", "f.csv"] (by decide) (by decide)).1,
    (partition_membership_only_grows
      [⟨"d_20240101_010101.csv", true, 0, "y"⟩] [⟨"g.csv", true, "z"⟩]
      [⟨["kaggle", "2024", "05", "06", "f.csv"], "x"⟩] ⟨2025, 1, 2, 3, 4, 5⟩
      ["kaggle", "2024", "05", "06", "f.csv"] (by decide) (by decide)).2⟩

open Churn in
/-- **C5** (counterexample).  The claim states that the partition directory is
derived from the capture timestamp embedded in the file name when present, and
from the modification time otherwise.  On a source folder holding
`data_20230101_120000.csv` (embedded capture date 2023-01-01, modification
time epoch 0 = 1970-01-01) and `plain.csv` (no embedded timestamp),
`partition_raw_data` files the first under `kaggle/1970/01/01` — the
modification-time date, not the embedded 2023-01-01 — and skips `plain.csv`
entirely instead of partitioning it by its modification time. -/
theorem partition_date_ignores_embedded_timestamp :
    RawDataStorage.partition_raw_data
        [⟨"data_20230101_120000.csv", true, 0, "c1"⟩,
         ⟨"plain.csv", true, 1700000000, "c2"⟩] []
      = [⟨["kaggle", "1970", "01", "01", "data_20230101_120000.csv"], "c1"⟩] ∧
    ["kaggle", "2023", "01", "01", "data_20230101_120000.csv"] ∉
      pathsOf (RawDataStorage.partition_raw_data
        [⟨"data_20230101_120000.csv", true, 0, "c1"⟩,
         ⟨"plain.csv", true, 1700000000, "c2"⟩] []) ∧
    (∀ p ∈ pathsOf (RawDataStorage.partition_raw_data
        [⟨"data_20230101_120000.csv", true, 0, "c1"⟩,
         ⟨"plain.csv", true, 1700000000, "c2"⟩] []),
      p.getLast? ≠ some "plain.csv") := by
  refine ⟨by decide, by decide, by decide⟩

open Churn in
/-- **C5** (amended).  `partition_raw_data` copies exactly the regular source
files whose names contain an embedded `_YYYYMMDD_HHMMSS.` timestamp, and files
each of them under `kaggle/<year>/<month>/<day>/<name>` with the date taken
from the file's *modification time* (the embedded timestamp is only a filter,
never parsed); files without the embedded shape are skipped entirely.
`store_data` copies every regular raw file under the partition of the current
run timestamp with the run's time string appended to the name, and only paths
of length one are ever removed. -/
theorem partition_destination_characterization
    (src : List RawDataStorage.SrcItem) (raw : List DataIngestion.RawItem)
    (st : Store) (now : DataIngestion.Timestamp) (p : List String) :
    (p ∈ pathsOf (RawDataStorage.partition_raw_data src st) ↔
      p ∈ pathsOf st ∨ ∃ item ∈ src, timestampPatternMatch item.name = true ∧
        item.isfile = true ∧
        p = ["kaggle"] ++ datePathOf (dateOfMtime item.mtime) ++ [item.name]) ∧
    (p ∈ pathsOf (DataIngestion.store_data raw st now) ↔
      (p ∈ pathsOf st ∨ ∃ item ∈ raw, item.isfile = true ∧
        p = DataIngestion.targetFolder now ++ [DataIngestion.newFileName now item.name]) ∧
      p.length ≠ 1) := by
  constructor
  · rw [partition_raw_data_eq_copyFold, mem_pathsOf_copyFold]
    refine or_congr_right ?_
    constructor
    · rintro ⟨item, hi, c, hc⟩
      by_cases h1 : timestampPatternMatch item.name && item.isfile
      · rw [if_pos h1] at hc
        injection hc with hpair
        rw [Bool.and_eq_true] at h1
        refine ⟨item, hi, h1.1, h1.2, ?_⟩
        have : p = RawDataStorage.destOf item := congrArg Prod.fst hpair.symm
        simpa [RawDataStorage.destOf] using this
      · rw [if_neg h1] at hc
        cases hc
    · rintro ⟨item, hi, hpat, hfile, rfl⟩
      refine ⟨item, hi, item.content, ?_⟩
      rw [if_pos (by rw [Bool.and_eq_true]; exact ⟨hpat, hfile⟩)]
      simp [RawDataStorage.destOf]
  · rw [store_data_eq_copyFold, mem_pathsOf_filter_len, mem_pathsOf_copyFold]
    refine and_congr_left fun _ => or_congr_right ?_
    constructor
    · rintro ⟨item, hi, c, hc⟩
      by_cases h1 : item.isfile
      · rw [if_pos h1] at hc
        injection hc with hpair
        exact ⟨item, hi, h1, congrArg Prod.fst hpair.symm⟩
      · rw [if_neg h1] at hc
        cases hc
    · rintro ⟨item, hi, hfile, rfl⟩
      exact ⟨item, hi, item.content, by rw [if_pos hfile]⟩

open Churn in
/-- **C10** (confirmed).  After `store_data` runs, the top level of the stored
base folder holds no regular file (deletion removed them all, and copies only
land at partition depth five), and any path that was present before and is
absent afterwards was a top-level file: files inside partition subdirectories
are never removed. -/
theorem store_data_top_level_cleanup
    (raw : List DataIngestion.RawItem) (st : Store) (now : DataIngestion.Timestamp) :
    (∀ e ∈ DataIngestion.store_data raw st now, e.path.length ≠ 1) ∧
    (∀ p, p ∈ pathsOf st → p ∉ pathsOf (DataIngestion.store_data raw st now) →
      p.length = 1) := by
  constructor
  · intro e he
    have : e ∈ (DataIngestion.store_data raw st now : Store) := he
    rw [store_data_eq_copyFold] at this
    have hlen := (List.mem_filter.mp this).2
    simpa using hlen
  · intro p hp hnp
    by_contra hlen
    apply hnp
    rw [store_data_eq_copyFold, mem_pathsOf_filter_len]
    exact ⟨(mem_pathsOf_copyFold _ _ _ _).mpr (Or.inl hp), hlen⟩

open Churn in
/-- Instantiation of the cleanup theorem at a concrete prior state with one
top-level file (deleted) and one partition member (kept). -/
theorem store_data_top_level_cleanup_witness :
    (⟨["kaggle", "2025", "01", "02", "f.csv"], "x"⟩ : Entry) ∈
      DataIngestion.store_data []
        [⟨["kaggle", "2025", "01", "02", "f.csv"], "x"⟩, ⟨["junk.txt"], "z"⟩]
        ⟨2025, 1, 2, 3, 4, 5⟩ ∧
    (["kaggle", "2025", "01", "02", "f.csv"] : List String).length ≠ 1 ∧
    (["junk.txt"] : List String).length = 1 :=
  ⟨by decide,
    (store_data_top_level_cleanup []
      [⟨["kaggle", "2025", "01", "02", "f.csv"], "x"⟩, ⟨["junk.txt"], "z"⟩]
      ⟨2025, 1, 2, 3, 4, 5⟩).1 ⟨["kaggle", "2025", "01", "02", "f.csv"], "x"⟩ (by decide),
    (store_data_top_level_cleanup []
      [⟨["kaggle", "2025", "01", "02", "f.csv"], "x"⟩, ⟨["junk.txt"], "z"⟩]
      ⟨2025, 1, 2, 3, 4, 5⟩).2 ["junk.txt"] (by decide) (by decide)⟩

namespace Churn.ModelBuilding

/-!
### Model selection

`src/model/model_building.py`, `train_and_evaluate_model` (lines 53–115):
two candidate classifiers are trained and scored; the selection at lines
105–112 is

    if metrics_rf["f1_score"] >= metrics_lr["f1_score"]:
        best_model = rf_model
    else:
        best_model = lr_model

The training itself is external numeric code; the selection rule, which is
what the claim is about, is a pure function of the two metric records.
-/

/-- The evaluation record computed for one candidate (lines 82–93); the
field `recallScore` holds the metric the source keys as `"recall"`. -/
structure Metrics where
  accuracy : Q
  precision : Q
  recallScore : Q
  f1_score : Q

/-- The two candidate classifiers of `train_and_evaluate_model`. -/
inductive Candidate where
  | logisticRegression
  | randomForest
deriving DecidableEq, Repr

/-- The best-model choice of lines 105–112. -/
def selectBestModel (metrics_lr metrics_rf : Metrics) : Candidate :=
  if qle metrics_lr.f1_score metrics_rf.f1_score then .randomForest
  else .logisticRegression

/-- F1 score of the selected candidate. -/
def selectedF1 (metrics_lr metrics_rf : Metrics) : Q :=
  match selectBestModel metrics_lr metrics_rf with
  | .randomForest => metrics_rf.f1_score
  | .logisticRegression => metrics_lr.f1_score

end Churn.ModelBuilding

open Churn Churn.ModelBuilding in
/-- **C9** (confirmed).  The model selection takes the random forest exactly
when its F1 is at least the logistic-regression F1, hence on exact ties the
second/ensemble candidate (the random forest) wins; the selected candidate's
F1 is maximal among the two; and the choice depends on nothing but the two F1
values. -/
theorem model_selection_by_max_f1 (mlr mrf : Metrics) :
    (selectBestModel mlr mrf = .randomForest ↔ qle mlr.f1_score mrf.f1_score = true) ∧
    (qeq mlr.f1_score mrf.f1_score = true → selectBestModel mlr mrf = .randomForest) ∧
    qle mlr.f1_score (selectedF1 mlr mrf) = true ∧
    qle mrf.f1_score (selectedF1 mlr mrf) = true ∧
    (∀ m₁ m₂ : Metrics, m₁.f1_score = mlr.f1_score → m₂.f1_score = mrf.f1_score →
      selectBestModel m₁ m₂ = selectBestModel mlr mrf) := by
  by_cases h : qle mlr.f1_score mrf.f1_score = true
  · refine ⟨by simp [selectBestModel, h], fun _ => by simp [selectBestModel, h], ?_, ?_, ?_⟩
    · simp [selectedF1, selectBestModel, h]
    · simp only [selectedF1, selectBestModel, h, if_true]
      unfold qle
      exact decide_eq_true le_rfl
    · intro m₁ m₂ h₁ h₂
      simp [selectBestModel, h₁, h₂]
  · have h' : qle mrf.f1_score mlr.f1_score = true := by
      unfold qle at h ⊢
      rw [decide_eq_true_iff]
      exact le_of_not_le (by simpa using h)
    refine ⟨by simp [selectBestModel, h], fun heq => ?_, ?_, ?_, ?_⟩
    · exfalso
      apply h
      unfold qeq at heq
      unfold qle
      rw [decide_eq_true_iff]
      exact le_of_eq (by exact_mod_cast beq_iff_eq.mp heq)
    · simp only [selectedF1, selectBestModel, h, if_false]
      unfold qle
      exact decide_eq_true le_rfl
    · simpa [selectedF1, selectBestModel, h] using h'
    · intro m₁ m₂ h₁ h₂
      simp [selectBestModel, h₁, h₂]

open Churn Churn.ModelBuilding in
/-- Instantiation of the selection theorem on an exact F1 tie (the two scores
are the same rational written with different denominators): the random forest
is selected. -/
theorem model_selection_by_max_f1_witness :
    qeq (⟨1, 2⟩ : Q) (⟨2, 4⟩ : Q) = true ∧
    selectBestModel ⟨qint 1, qint 1, qint 1, ⟨1, 2⟩⟩ ⟨qint 0, qint 0, qint 0, ⟨2, 4⟩⟩
      = .randomForest :=
  ⟨by decide,
    (model_selection_by_max_f1 ⟨qint 1, qint 1, qint 1, ⟨1, 2⟩⟩
      ⟨qint 0, qint 0, qint 0, ⟨2, 4⟩⟩).2.1 (by decide)⟩

namespace Churn

/-!
### Tabular data model

pandas data frames are modelled row-major: a header of named, typed columns
(`float64`/`int64` collapse to the numeric kind, `object` columns holding
strings to the categorical kind) and a list of rows of cells.  A missing cell
(`NaN`) is `none`.  Cell equality is value equality (pandas treats missing
values as equal to each other in `duplicated`/`drop_duplicates`).
-/

/-- Dtype kind of a column. -/
inductive Kind where
  | num
  | cat
deriving DecidableEq, Repr

/-- A cell: numeric or categorical, present or missing. -/
inductive Cell where
  | num (v : Option Q)
  | cat (v : Option String)
deriving Repr

/-- The kind of a cell. -/
def cellKind : Cell → Kind
  | .num _ => .num
  | .cat _ => .cat

/-- Whether a cell holds a present (non-`NaN`) value. -/
def isPresent : Cell → Bool
  | .num (some _) => true
  | .cat (some _) => true
  | _ => false

/-- Value equality of cells, with missing equal to missing, as pandas
`duplicated`/`drop_duplicates` compare rows. -/
def cellEq : Cell → Cell → Bool
  | .num none, .num none => true
  | .num (some a), .num (some b) => qeq a b
  | .cat a, .cat b => a == b
  | _, _ => false

/-- Value equality of rows. -/
def rowEq : List Cell → List Cell → Bool
  | [], [] => true
  | a :: as, b :: bs => cellEq a b && rowEq as bs
  | _, _ => false

/-- A data frame. -/
structure Table where
  header : List (String × Kind)
  rows : List (List Cell)
deriving Repr

/-- Column names of a table. -/
def colNames (t : Table) : List String := t.header.map (·.1)

/-- Well-formedness: every row's kind profile follows the header. -/
def WFTable (t : Table) : Prop :=
  ∀ r ∈ t.rows, r.map cellKind = t.header.map (·.2)

/-- Number of missing cells in the whole table. -/
def missingCount (t : Table) : Nat :=
  (t.rows.map (fun r => r.countP (fun c => !isPresent c))).sum

/-- Position of the first column with a given name. -/
def colIdx (header : List (String × Kind)) (c : String) : Option Nat :=
  match header with
  | [] => none
  | h :: rest => if h.1 == c then some 0 else (colIdx rest c).map (· + 1)

/-- The present numeric values of column `i`. -/
def presentNums (rows : List (List Cell)) (i : Nat) : List Q :=
  rows.filterMap (fun r =>
    match r.get? i with
    | some (.num (some v)) => some v
    | _ => none)

/-- The present categorical values of column `i`. -/
def presentStrs (rows : List (List Cell)) (i : Nat) : List String :=
  rows.filterMap (fun r =>
    match r.get? i with
    | some (.cat (some s)) => some s
    | _ => none)

/-- First-occurrence deduplication of rational values (value equality). -/
def distinctQs (l : List Q) : List Q :=
  l.foldl (fun acc x => if acc.any (qeq x) then acc else acc ++ [x]) []

/-- Insertion into a value-sorted list of rationals. -/
def insertQ (x : Q) : List Q → List Q
  | [] => [x]
  | y :: ys => if qle x y then x :: y :: ys else y :: insertQ x ys

/-- Insertion sort of rationals by value. -/
def sortQ : List Q → List Q
  | [] => []
  | x :: xs => insertQ x (sortQ xs)

/-- pandas `Series.quantile(q)` over the present values, linear
interpolation: position `q*(n-1)` between the sorted order statistics.
`none` models the `NaN` result on an empty (or all-missing) column. -/
def quantileQ (q : Q) (xs : List Q) : Option Q :=
  match sortQ xs with
  | [] => none
  | x0 :: tl =>
      let sorted := x0 :: tl
      let pos := qmul q (qnat (sorted.length - 1))
      let lo := pos.num.toNat / pos.den.toNat
      let a := sorted.getD lo x0
      let b := sorted.getD (lo + 1) a
      some (qadd a (qmul (qsub pos (qnat lo)) (qsub b a)))

/-- pandas `Series.median()` over the present values (the interpolated
half quantile); `none` models `NaN` on an empty column. -/
def medianQ (xs : List Q) : Option Q := quantileQ ⟨1, 2⟩ xs

/-- Mean of a nonempty list of rationals (`Series.mean()` over present
values; only evaluated under a nonemptiness guard, as in the source). -/
def meanQ (xs : List Q) : Q := qdiv (qsum xs) (qnat xs.length)

/-- Stand-in for pandas `Series.std()` (sample standard deviation,
`ddof=1`): `none` models its `NaN` on fewer than two present values;
otherwise the sample *variance* is returned in place of its square root,
which is irrational in general.  The substitution is sound for every claim
settled in this file: the source only branches on `std != 0` (the variance
is zero exactly when the standard deviation is) and divides the centred
column by it, a positive rescaling that leaves missingness, cell equality
within a column, and column structure unchanged — no claim observes the
numeric magnitudes themselves. -/
def sampleStdQ (xs : List Q) : Option Q :=
  if xs.length ≤ 1 then none
  else some (qdiv
    (qsum (xs.map (fun x => qmul (qsub x (meanQ xs)) (qsub x (meanQ xs)))))
    (qnat (xs.length - 1)))

/-- The distinct values of maximal frequency (the members of pandas
`Series.mode()` for an object column). -/
def modeCands (xs : List String) : List String :=
  (distinctStrings xs).filter (fun w => xs.countP (fun x => x == w) ==
    ((distinctStrings xs).map (fun w' => xs.countP (fun x => x == w'))).foldr Nat.max 0)

/-- pandas `Series.mode()[0]` for an object column: the lexicographically
smallest among the most frequent present values (`mode()` returns the sorted
modes); `none` models the `IndexError` of `[0]` when there is no present
value at all. -/
def modeStr (xs : List String) : Option String :=
  (sortStrings (modeCands xs)).head?

end Churn

namespace Churn.DataPreparation

/-- The fixed identifier/date columns dropped first by `prepare_data`
(line 88). -/
def colsToDropList : List String :=
  ["EmployeeID", "recorddate_key", "birthdate_key", "orighiredate_key", "terminationdate_key"]

/-- `df.drop(columns=[...])`: remove every column whose name is listed,
keeping rows aligned with the remaining header. -/
def dropColumns (t : Table) (bad : List String) : Table :=
  { header := t.header.filter (fun h => !(bad.contains h.1)),
    rows := t.rows.map (fun r =>
      ((t.header.zip r).filter (fun p => !(bad.contains p.1.1))).map (·.2)) }

/-- The per-column fill value of the imputation loop (lines 95–99): the
column median for numeric columns (filling with a `NaN` median is a no-op,
as in pandas), the column mode for the rest; `none` models the
`IndexError` of `mode()[0]` on a column with no present value. -/
def fillValue (t : Table) (i : Nat) : Option Cell :=
  match t.header.get? i with
  | some (_, .num) => some (.num (medianQ (presentNums t.rows i)))
  | some (_, .cat) => (modeStr (presentStrs t.rows i)).map (fun w => .cat (some w))
  | none => none

/-- `Series.fillna(v)` on one cell: replace a missing value by the fill
value of its own kind. -/
def applyFill (f c : Cell) : Cell :=
  match c, f with
  | .num none, .num v => .num v
  | .cat none, .cat v => .cat v
  | _, _ => c

/-- Collect a list of optional values, failing on the first missing one (the
loop of lines 95–99 raises at the first column whose fill value does not
exist). -/
def seqOpts : List (Option α) → Option (List α)
  | [] => some []
  | none :: _ => none
  | some a :: os => (seqOpts os).map (fun as => a :: as)

/-- The imputation loop over all columns (lines 95–99); fails exactly when
some categorical column has no present value (the `mode()[0]` of the
source raises there). -/
def fillna (t : Table) : Option Table :=
  (seqOpts ((List.range t.header.length).map (fun i => fillValue t i))).map (fun fills =>
    { header := t.header, rows := t.rows.map (fun r => List.zipWith applyFill fills r) })

/-- Keep-first deduplication of rows under value equality
(`df.drop_duplicates()`, line 104). -/
def dedupAux (seen : List (List Cell)) : List (List Cell) → List (List Cell)
  | [] => []
  | r :: rs =>
      if seen.any (fun s => rowEq s r) then dedupAux seen rs
      else r :: dedupAux (r :: seen) rs

/-- `df.drop_duplicates()` keeping first occurrences. -/
def dropDuplicates (rows : List (List Cell)) : List (List Cell) := dedupAux [] rows

/-- `remove_outliers_iqr(df, column)` (lines 37–53): keep the rows whose
value in column `i` lies within `[Q1 - 1.5*IQR, Q3 + 1.5*IQR]`.  A missing
value compares false against the bounds (NaN semantics) and the row is
dropped; if the quantiles themselves are `NaN` (no present value), every
comparison is false and no row survives. -/
def remove_outliers_iqr (rows : List (List Cell)) (i : Nat) : List (List Cell) :=
  match quantileQ ⟨1, 4⟩ (presentNums rows i), quantileQ ⟨3, 4⟩ (presentNums rows i) with
  | some q1, some q3 =>
      let iqr := qsub q3 q1
      let lower := qsub q1 (qmul ⟨3, 2⟩ iqr)
      let upper := qadd q3 (qmul ⟨3, 2⟩ iqr)
      rows.filter (fun r =>
        match r.get? i with
        | some (.num (some v)) => qle lower v && qle v upper
        | _ => false)
  | _, _ => []

/-- The indexes of the numeric columns (`select_dtypes(['float64','int64'])`,
line 107; the header never changes between lines 107 and 122, so the same
index list drives both the outlier loop and the normalisation loop). -/
def numericIdxs (t : Table) : List Nat :=
  (List.range t.header.length).filter (fun i =>
    match t.header.get? i with
    | some (_, .num) => true
    | _ => false)

/-- One pass of the z-score normalisation loop (lines 116–122) on column
`i`.  `std` of fewer than two present values is `NaN`; since `NaN != 0`
holds in Python, the source then divides by it and the whole column becomes
`NaN`.  A zero standard deviation takes the `df[col] = 0` branch.  Otherwise
each present value is replaced by `(x - mean)/std`, missing cells staying
missing. -/
def standardizeCol (rows : List (List Cell)) (i : Nat) : List (List Cell) :=
  let xs := presentNums rows i
  match sampleStdQ xs with
  | none =>
      rows.map (fun r =>
        match r.get? i with
        | some (.num _) => r.set i (.num none)
        | _ => r)
  | some s =>
      if qisZero s then
        rows.map (fun r =>
          match r.get? i with
          | some (.num _) => r.set i (.num (some (qint 0)))
          | _ => r)
      else
        rows.map (fun r =>
          match r.get? i with
          | some (.num ov) => r.set i (.num (ov.map (fun v => qdiv (qsub v (meanQ xs)) s)))
          | _ => r)

/-- The names of the categorical columns
(`select_dtypes(['object','category'])`, line 125). -/
def catNames (t : Table) : List String :=
  (t.header.filter (fun h => decide (h.2 = Kind.cat))).map (·.1)

/-- `df[col].nunique()` for a named column: the number of distinct present
values (pandas excludes `NaN`). -/
def nuniqueOf (t : Table) (c : String) : Nat :=
  match colIdx t.header c with
  | some i =>
      match t.header.get? i with
      | some (_, .num) => (distinctQs (presentNums t.rows i)).length
      | _ => (distinctStrings (presentStrs t.rows i)).length
  | none => 0

/-- The `one_hot_cols` routing list (lines 131–135): categorical columns
with at most 20 distinct values. -/
def oneHotCols (t : Table) : List String :=
  (catNames t).filter (fun c => decide (nuniqueOf t c ≤ 20))

/-- The `label_enc_cols` routing list (lines 136–137): categorical columns
with 21 to 50 distinct values. -/
def labelEncCols (t : Table) : List String :=
  (catNames t).filter (fun c => !decide (nuniqueOf t c ≤ 20) && decide (nuniqueOf t c ≤ 50))

/-- The `drop_cols` routing list (lines 138–139): categorical columns with
more than 50 distinct values. -/
def dropHighCols (t : Table) : List String :=
  (catNames t).filter (fun c => !decide (nuniqueOf t c ≤ 50))

/-- The sorted distinct present values of a named column (the category
levels `pd.get_dummies` and `LabelEncoder.fit` work with). -/
def sortedLevels (t : Table) (c : String) : List String :=
  match colIdx t.header c with
  | some i => sortStrings (distinctStrings (presentStrs t.rows i))
  | none => []

/-- The indicator-column names `get_dummies(..., drop_first=True)` creates
for one encoded column: `f"{col}_{level}"` for every level but the first. -/
def dummyNamesFor (t : Table) (c : String) : List String :=
  ((sortedLevels t c).drop 1).map (fun v => c ++ "_" ++ v)

/-- The indicator cells of one encoded cell: 1 for the cell's own level,
0 elsewhere; a missing cell yields all zeros (`dummy_na=False`). -/
def dummyCellsFor (t : Table) (c : String) (cell : Cell) : List Cell :=
  ((sortedLevels t c).drop 1).map (fun v =>
    match cell with
    | .cat (some w) => .num (some (if w == v then qint 1 else qint 0))
    | _ => .num (some (qint 0)))

/-- `pd.get_dummies(df, columns=enc, drop_first=True)` (line 146): the
non-encoded columns keep their order, the indicator columns are appended. -/
def getDummies (t : Table) (enc : List String) : Table :=
  { header := t.header.filter (fun h => !(enc.contains h.1)) ++
      (t.header.filter (fun h => enc.contains h.1)).flatMap (fun h =>
        (dummyNamesFor t h.1).map (fun d => (d, Kind.num))),
    rows := t.rows.map (fun r =>
      ((t.header.zip r).filter (fun p => !(enc.contains p.1.1))).map (·.2) ++
      ((t.header.zip r).filter (fun p => enc.contains p.1.1)).flatMap (fun p =>
        dummyCellsFor t p.1.1 p.2)) }

/-- Position of a level among the fitted classes of a `LabelEncoder`. -/
def levelIdx (classes : List String) (w : String) : Nat :=
  match classes with
  | [] => 0
  | v :: vs => if v == w then 0 else levelIdx vs w + 1

/-- The integer code `LabelEncoder.fit_transform` assigns to one cell: the
index of its level among the sorted classes.  The missing-cell branch is
unreachable after imputation (the source would have raised earlier); it is
given the out-of-range code `classes.length`. -/
def encodeCell (classes : List String) (cell : Cell) : Nat :=
  match cell with
  | .cat (some w) => levelIdx classes w
  | _ => classes.length

/-- The label-encoding loop (lines 148–151): each listed column becomes an
integer column of level codes. -/
def labelEncode (t : Table) (enc : List String) : Table :=
  { header := t.header.map (fun h => if enc.contains h.1 then (h.1, Kind.num) else h),
    rows := t.rows.map (fun r => (t.header.zip r).map (fun p =>
      if enc.contains p.1.1 then .num (some (qnat (encodeCell (sortedLevels t p.1.1) p.2)))
      else p.2)) }

/-- Step 6 of `prepare_data` (lines 124–151): compute the three routing
lists from the distinct-value counts, drop the high-cardinality columns,
one-hot encode the low-cardinality ones with the first level dropped, and
label-encode the middle tier. -/
def processCategoricals (t : Table) : Table :=
  labelEncode (getDummies (dropColumns t (dropHighCols t)) (oneHotCols t)) (labelEncCols t)

/-- `prepare_data` up to and including the outlier loop (steps 1–4, lines
86–113): drop the fixed identifier columns, impute missing values, drop
duplicate rows, then trim IQR outliers column by column. -/
def afterOutliers (t : Table) : Option Table :=
  (fillna (dropColumns t colsToDropList)).map (fun t2 =>
    { header := t2.header,
      rows := (numericIdxs t2).foldl remove_outliers_iqr (dropDuplicates t2.rows) })

/-- `prepare_data` (lines 55–203).  The printing, plotting and CSV output of
the source have no bearing on the returned frame; the returned value is the
cleaned, normalised, encoded table, or `none` where the source raises
(`mode()[0]` of an all-missing categorical column). -/
def prepare_data (t : Table) : Option Table :=
  (afterOutliers t).map (fun t4 =>
    processCategoricals
      { header := t4.header, rows := (numericIdxs t4).foldl standardizeCol t4.rows })

end Churn.DataPreparation

namespace Churn

/-- Length of a successfully collected option list. -/
theorem seqOpts_length {l : List (Option α)} {res : List α}
    (h : DataPreparation.seqOpts l = some res) : res.length = l.length := by
  induction l generalizing res with
  | nil =>
    simp only [DataPreparation.seqOpts] at h
    cases h
    rfl
  | cons o os ih =>
    cases o with
    | none => simp [DataPreparation.seqOpts] at h
    | some a =>
      cases hos : DataPreparation.seqOpts os with
      | none => simp [DataPreparation.seqOpts, hos] at h
      | some as =>
        simp only [DataPreparation.seqOpts, hos, Option.map_some'] at h
        cases h
        simp [ih hos]

/-- Element correspondence of a successfully collected option list. -/
theorem seqOpts_get? {l : List (Option α)} {res : List α}
    (h : DataPreparation.seqOpts l = some res) (i : Nat) :
    l.get? i = (res.get? i).map some := by
  induction l generalizing res i with
  | nil =>
    simp only [DataPreparation.seqOpts] at h
    cases h
    simp
  | cons o os ih =>
    cases o with
    | none => simp [DataPreparation.seqOpts] at h
    | some a =>
      cases hos : DataPreparation.seqOpts os with
      | none => simp [DataPreparation.seqOpts, hos] at h
      | some as =>
        simp only [DataPreparation.seqOpts, hos, Option.map_some'] at h
        cases h
        cases i with
        | zero => simp
        | succ j => simpa using ih hos j

/-- A list of options all present collects successfully. -/
theorem seqOpts_isSome_of_forall {l : List (Option α)} (h : ∀ o ∈ l, o ≠ none) :
    ∃ res, DataPreparation.seqOpts l = some res := by
  induction l with
  | nil => exact ⟨[], rfl⟩
  | cons o os ih =>
    obtain ⟨as, has⟩ := ih (fun o' ho' => h o' (List.mem_cons_of_mem _ ho'))
    cases o with
    | none => exact absurd rfl (h none (List.mem_cons_self _ _))
    | some a => exact ⟨a :: as, by simp [DataPreparation.seqOpts, has]⟩

/-- Inserting into a sorted string list adds one element. -/
theorem insertSorted_length (s : String) (l : List String) :
    (insertSorted s l).length = l.length + 1 := by
  induction l with
  | nil => rfl
  | cons t ts ih =>
    by_cases h : strLt s t
    · simp [insertSorted, h]
    · simp [insertSorted, h, ih]

/-- Sorting strings preserves the length. -/
theorem sortStrings_length (l : List String) : (sortStrings l).length = l.length := by
  induction l with
  | nil => rfl
  | cons s ss ih => simp [sortStrings, insertSorted_length, ih]

/-- Inserting into a value-sorted rational list adds one element. -/
theorem insertQ_length (x : Q) (l : List Q) : (insertQ x l).length = l.length + 1 := by
  induction l with
  | nil => rfl
  | cons y ys ih =>
    by_cases h : qle x y
    · simp [insertQ, h]
    · simp [insertQ, h, ih]

/-- Sorting rationals preserves the length. -/
theorem sortQ_length (l : List Q) : (sortQ l).length = l.length := by
  induction l with
  | nil => rfl
  | cons x xs ih => simp [sortQ, insertQ_length, ih]

/-- The sort of a nonempty rational list is nonempty. -/
theorem sortQ_ne_nil {l : List Q} (h : l ≠ []) : sortQ l ≠ [] := by
  intro hc
  apply h
  have := sortQ_length l
  rw [hc] at this
  exact List.length_eq_zero.mp this.symm

/-- The distinct values of a nonempty string list are nonempty. -/
theorem distinctStrings_ne_nil {l : List String} (h : l ≠ []) : distinctStrings l ≠ [] := by
  have aux : ∀ (xs : List String) (acc : List String), acc ≠ [] →
      xs.foldl (fun acc s => if acc.contains s then acc else acc ++ [s]) acc ≠ [] := by
    intro xs
    induction xs with
    | nil => intro acc hacc; exact hacc
    | cons x rest ih =>
      intro acc hacc
      rw [List.foldl_cons]
      by_cases hx : acc.contains x = true
      · rw [if_pos hx]; exact ih acc hacc
      · rw [if_neg hx]; exact ih (acc ++ [x]) (by simp)
  cases l with
  | nil => exact absurd rfl h
  | cons x xs =>
    unfold distinctStrings
    rw [List.foldl_cons, if_neg (by intro hc; exact Bool.false_ne_true hc)]
    exact aux xs ([] ++ [x]) (by simp)

/-- The maximum of a nonempty list of naturals is attained. -/
theorem foldr_max_mem : ∀ (l : List Nat), l ≠ [] → l.foldr Nat.max 0 ∈ l := by
  intro l
  induction l with
  | nil => intro h; exact absurd rfl h
  | cons a rest ih =>
    intro _
    rw [List.foldr_cons]
    cases rest with
    | nil => simp
    | cons b bs =>
      have ih' := ih (by simp)
      rw [Nat.max_eq_max]
      rcases Nat.le_total (List.foldr Nat.max 0 (b :: bs)) a with hle | hle
      · rw [max_eq_left hle]
        exact List.mem_cons_self _ _
      · rw [max_eq_right hle]
        exact List.mem_cons_of_mem _ ih'

end Churn

namespace Churn

/-- A nonempty list of values has a most frequent value. -/
theorem modeCands_ne_nil {xs : List String} (h : xs ≠ []) : modeCands xs ≠ [] := by
  have hd := distinctStrings_ne_nil h
  have hbest := foldr_max_mem
    ((distinctStrings xs).map (fun w' => xs.countP (fun x => x == w')))
    (by simpa using hd)
  rcases List.mem_map.mp hbest with ⟨w, hw, hcw⟩
  apply List.ne_nil_of_mem (a := w)
  apply List.mem_filter.mpr
  exact ⟨hw, by rw [hcw]; exact beq_self_eq_true _⟩

/-- pandas `mode()[0]` exists on a column with at least one present value. -/
theorem modeStr_isSome {xs : List String} (h : xs ≠ []) : ∃ w, modeStr xs = some w := by
  have hne : sortStrings (modeCands xs) ≠ [] := by
    intro hc
    have hlen := sortStrings_length (modeCands xs)
    rw [hc] at hlen
    exact modeCands_ne_nil h (List.length_eq_zero.mp hlen.symm)
  unfold modeStr
  cases hs : sortStrings (modeCands xs) with
  | nil => exact absurd hs hne
  | cons a as => exact ⟨a, by simp⟩

/-- Well-formed rows for a header: every row's kind profile follows it. -/
def RowsWF (hdr : List (String × Kind)) (rows : List (List Cell)) : Prop :=
  ∀ r ∈ rows, r.map cellKind = hdr.map (·.2)

/-- Row lengths of well-formed rows. -/
theorem RowsWF.length_eq {hdr : List (String × Kind)} {rows : List (List Cell)}
    (h : RowsWF hdr rows) {r : List Cell} (hr : r ∈ rows) : r.length = hdr.length := by
  have := congrArg List.length (h r hr)
  simpa using this

/-- Well-formedness restricts to sublists of the rows. -/
theorem RowsWF.sublist_rows {hdr : List (String × Kind)} {rows rows' : List (List Cell)}
    (h : RowsWF hdr rows) (hs : List.Sublist rows' rows) : RowsWF hdr rows' :=
  fun r hr => h r (hs.subset hr)

/-- The kind of a cell of a well-formed row is the header's kind at its
position. -/
theorem RowsWF.kind_at {hdr : List (String × Kind)} {rows : List (List Cell)}
    (h : RowsWF hdr rows) {r : List Cell} (hr : r ∈ rows) {i : Nat} {c : Cell}
    (hc : r.get? i = some c) : (hdr.get? i).map (·.2) = some (cellKind c) := by
  have hm := h r hr
  have hcongr : (r.map cellKind).get? i = (hdr.map (·.2)).get? i := by rw [hm]
  rw [List.get?_eq_getElem?, List.get?_eq_getElem?, List.getElem?_map, List.getElem?_map] at hcongr
  rw [List.get?_eq_getElem?] at hc
  rw [hc] at hcongr
  rw [List.get?_eq_getElem?]
  exact hcongr.symm

/-- Every position below the header length holds a cell in a well-formed
row. -/
theorem RowsWF.get_isSome {hdr : List (String × Kind)} {rows : List (List Cell)}
    (h : RowsWF hdr rows) {r : List Cell} (hr : r ∈ rows) {i : Nat}
    (hi : i < hdr.length) : ∃ c, r.get? i = some c := by
  have hlen := h.length_eq hr
  cases hc : r.get? i with
  | none =>
    have := List.get?_eq_none.mp hc
    omega
  | some c => exact ⟨c, rfl⟩

/-- A name present in a header has a first column index. -/
theorem colIdx_isSome_of_mem {hdr : List (String × Kind)} {c : String}
    (h : ∃ k, (c, k) ∈ hdr) : ∃ i, colIdx hdr c = some i := by
  induction hdr with
  | nil => rcases h with ⟨k, hk⟩; cases hk
  | cons p rest ih =>
    by_cases hp : p.1 == c
    · exact ⟨0, by simp [colIdx, hp]⟩
    · rcases h with ⟨k, hk⟩
      rcases List.mem_cons.mp hk with rfl | hk'
      · simp at hp
      · obtain ⟨i, hi⟩ := ih ⟨k, hk'⟩
        exact ⟨i + 1, by simp [colIdx, hp, hi]⟩

/-- The column index points at a column of the given name. -/
theorem colIdx_get? {hdr : List (String × Kind)} {c : String} {i : Nat}
    (h : colIdx hdr c = some i) : ∃ k, hdr.get? i = some (c, k) := by
  induction hdr generalizing i with
  | nil => cases h
  | cons p rest ih =>
    by_cases hp : p.1 == c
    · simp only [colIdx, hp, if_true] at h
      cases h
      refine ⟨p.2, ?_⟩
      have : p.1 = c := by simpa using hp
      simp [← this]
    · simp only [colIdx, hp, if_false, Bool.false_eq_true] at h
      cases hcr : colIdx rest c with
      | none => rw [hcr] at h; cases h
      | some i' =>
        rw [hcr] at h
        injection h with h'
        obtain ⟨k, hk⟩ := ih hcr
        refine ⟨k, ?_⟩
        rw [← h']
        simpa using hk

end Churn

namespace Churn

/-- Dropping columns by name moves each remaining column from its original
position to its position in the filtered header, cell for cell, and keeps
the header entry itself. -/
theorem dropColumns_zip_get? :
    ∀ (hdr : List (String × Kind)) (r : List Cell) (bad : List String) (c : String) (i j : Nat),
      colIdx hdr c = some i →
      colIdx (hdr.filter (fun h => !(bad.contains h.1))) c = some j →
      bad.contains c = false →
      r.length = hdr.length →
      (((hdr.zip r).filter (fun p => !(bad.contains p.1.1))).map (·.2)).get? j = r.get? i ∧
      (hdr.filter (fun h => !(bad.contains h.1))).get? j = hdr.get? i := by
  intro hdr
  induction hdr with
  | nil => intro r bad c i j hi _ _ _; cases hi
  | cons h hdr' ih =>
    intro r bad c i j hi hj hbc hlen
    cases r with
    | nil => simp at hlen
    | cons cr r' =>
      have hlen' : r'.length = hdr'.length := by simpa using hlen
      by_cases hc : h.1 == c
      · have hceq : h.1 = c := by simpa using hc
        have hbh : bad.contains h.1 = false := by rw [hceq]; exact hbc
        have hbm : h.1 ∉ bad := by simpa using hbh
        simp only [colIdx, hc, if_true] at hi
        cases hi
        have hfh : (h :: hdr').filter (fun h => !(bad.contains h.1))
            = h :: hdr'.filter (fun h => !(bad.contains h.1)) := by
          simp [List.filter_cons, hbm]
        rw [hfh] at hj
        simp only [colIdx, hc, if_true] at hj
        cases hj
        have hfz : ((h :: hdr').zip (cr :: r')).filter (fun p => !(bad.contains p.1.1))
            = (h, cr) :: (hdr'.zip r').filter (fun p => !(bad.contains p.1.1)) := by
          simp [List.zip_cons_cons, List.filter_cons, hbm]
        refine ⟨?_, ?_⟩
        · rw [hfz]; rfl
        · rw [hfh]; rfl
      · simp only [colIdx, hc, if_false, Bool.false_eq_true] at hi
        cases hi' : colIdx hdr' c with
        | none => rw [hi'] at hi; cases hi
        | some i' =>
          rw [hi'] at hi
          injection hi with hi
          by_cases hb : bad.contains h.1 = true
          · have hbm : h.1 ∈ bad := by simpa using hb
            have hfh : (h :: hdr').filter (fun h => !(bad.contains h.1))
                = hdr'.filter (fun h => !(bad.contains h.1)) := by
              simp [List.filter_cons, hbm]
            have hfz : ((h :: hdr').zip (cr :: r')).filter (fun p => !(bad.contains p.1.1))
                = (hdr'.zip r').filter (fun p => !(bad.contains p.1.1)) := by
              simp [List.zip_cons_cons, List.filter_cons, hbm]
            rw [hfh] at hj
            obtain ⟨h1, h2⟩ := ih r' bad c i' j hi' hj hbc hlen'
            refine ⟨?_, ?_⟩
            · rw [hfz, h1, ← hi]; rfl
            · rw [hfh, h2, ← hi]; rfl
          · have hb' : bad.contains h.1 = false := by
              cases hbb : bad.contains h.1
              · rfl
              · exact absurd hbb hb
            have hbm : h.1 ∉ bad := by simpa using hb'
            have hfh : (h :: hdr').filter (fun h => !(bad.contains h.1))
                = h :: hdr'.filter (fun h => !(bad.contains h.1)) := by
              simp [List.filter_cons, hbm]
            have hfz : ((h :: hdr').zip (cr :: r')).filter (fun p => !(bad.contains p.1.1))
                = (h, cr) :: (hdr'.zip r').filter (fun p => !(bad.contains p.1.1)) := by
              simp [List.zip_cons_cons, List.filter_cons, hbm]
            rw [hfh] at hj
            simp only [colIdx, hc, if_false, Bool.false_eq_true] at hj
            cases hj' : colIdx (hdr'.filter (fun h => !(bad.contains h.1))) c with
            | none => rw [hj'] at hj; cases hj
            | some j' =>
              rw [hj'] at hj
              injection hj with hj
              obtain ⟨h1, h2⟩ := ih r' bad c i' j' hi' hj' hbc hlen'
              refine ⟨?_, ?_⟩
              · rw [hfz, ← hj, ← hi]
                simpa using h1
              · rw [hfh, ← hj, ← hi]
                simpa using h2

/-- The rows of `dropColumns`. -/
theorem dropColumns_rows (t : Table) (bad : List String) :
    (DataPreparation.dropColumns t bad).rows = t.rows.map (fun r =>
      ((t.header.zip r).filter (fun p => !(bad.contains p.1.1))).map (·.2)) := rfl

/-- The header of `dropColumns`. -/
theorem dropColumns_header (t : Table) (bad : List String) :
    (DataPreparation.dropColumns t bad).header =
      t.header.filter (fun h => !(bad.contains h.1)) := rfl

/-- Dropping other columns does not change a kept column's present
categorical values. -/
theorem dropColumns_presentStrs {t : Table} {bad : List String} {c : String} {i j : Nat}
    (hwf : RowsWF t.header t.rows)
    (hi : colIdx t.header c = some i)
    (hj : colIdx (DataPreparation.dropColumns t bad).header c = some j)
    (hbc : bad.contains c = false) :
    presentStrs (DataPreparation.dropColumns t bad).rows j = presentStrs t.rows i := by
  rw [dropColumns_rows]
  unfold presentStrs
  rw [List.filterMap_map]
  apply List.filterMap_congr
  intro r hr
  have hlen := hwf.length_eq hr
  have := (dropColumns_zip_get? t.header r bad c i j hi (by rw [← dropColumns_header]; exact hj)
    hbc hlen).1
  simp only [Function.comp]
  rw [this]

/-- Dropping other columns does not change a kept column's present numeric
values. -/
theorem dropColumns_presentNums {t : Table} {bad : List String} {c : String} {i j : Nat}
    (hwf : RowsWF t.header t.rows)
    (hi : colIdx t.header c = some i)
    (hj : colIdx (DataPreparation.dropColumns t bad).header c = some j)
    (hbc : bad.contains c = false) :
    presentNums (DataPreparation.dropColumns t bad).rows j = presentNums t.rows i := by
  rw [dropColumns_rows]
  unfold presentNums
  rw [List.filterMap_map]
  apply List.filterMap_congr
  intro r hr
  have hlen := hwf.length_eq hr
  have := (dropColumns_zip_get? t.header r bad c i j hi (by rw [← dropColumns_header]; exact hj)
    hbc hlen).1
  simp only [Function.comp]
  rw [this]

/-- Dropping other columns does not change a kept column's header entry at
its column index. -/
theorem dropColumns_header_get? {t : Table} {bad : List String} {c : String} {i j : Nat}
    (hi : colIdx t.header c = some i)
    (hj : colIdx (DataPreparation.dropColumns t bad).header c = some j)
    (hbc : bad.contains c = false) :
    (DataPreparation.dropColumns t bad).header.get? j = t.header.get? i := by
  have := (dropColumns_zip_get? t.header
    (t.header.map (fun _ => Cell.cat none)) bad c i j hi
    (by rw [← dropColumns_header]; exact hj) hbc (by simp)).2
  rw [dropColumns_header]
  exact this

/-- Dropping other columns preserves a kept column's distinct-value count. -/
theorem dropColumns_nuniqueOf {t : Table} {bad : List String} {c : String}
    (hwf : RowsWF t.header t.rows)
    (hmem : ∃ k, (c, k) ∈ t.header)
    (hbc : bad.contains c = false) :
    DataPreparation.nuniqueOf (DataPreparation.dropColumns t bad) c =
      DataPreparation.nuniqueOf t c := by
  obtain ⟨i, hi⟩ := colIdx_isSome_of_mem hmem
  obtain ⟨k, hk⟩ := colIdx_get? hi
  have hmem' : ∃ k', (c, k') ∈ (DataPreparation.dropColumns t bad).header := by
    rcases hmem with ⟨k', hk'⟩
    refine ⟨k', ?_⟩
    rw [dropColumns_header]
    exact List.mem_filter.mpr ⟨hk', by simpa using hbc⟩
  obtain ⟨j, hj⟩ := colIdx_isSome_of_mem hmem'
  have hhd := dropColumns_header_get? hi hj hbc
  unfold DataPreparation.nuniqueOf
  rw [hi, hj]
  show (match (DataPreparation.dropColumns t bad).header.get? j with
      | some (_, Kind.num) =>
          (distinctQs (presentNums (DataPreparation.dropColumns t bad).rows j)).length
      | _ => (distinctStrings (presentStrs (DataPreparation.dropColumns t bad).rows j)).length)
    = match t.header.get? i with
      | some (_, Kind.num) => (distinctQs (presentNums t.rows i)).length
      | _ => (distinctStrings (presentStrs t.rows i)).length
  rw [hhd, hk]
  cases k with
  | num =>
    show (distinctQs (presentNums (DataPreparation.dropColumns t bad).rows j)).length
      = (distinctQs (presentNums t.rows i)).length
    rw [dropColumns_presentNums hwf hi hj hbc]
  | cat =>
    show (distinctStrings (presentStrs (DataPreparation.dropColumns t bad).rows j)).length
      = (distinctStrings (presentStrs t.rows i)).length
    rw [dropColumns_presentStrs hwf hi hj hbc]

/-- Dropping other columns preserves a kept column's sorted levels. -/
theorem dropColumns_sortedLevels {t : Table} {bad : List String} {c : String}
    (hwf : RowsWF t.header t.rows)
    (hmem : ∃ k, (c, k) ∈ t.header)
    (hbc : bad.contains c = false) :
    DataPreparation.sortedLevels (DataPreparation.dropColumns t bad) c =
      DataPreparation.sortedLevels t c := by
  obtain ⟨i, hi⟩ := colIdx_isSome_of_mem hmem
  have hmem' : ∃ k', (c, k') ∈ (DataPreparation.dropColumns t bad).header := by
    rcases hmem with ⟨k', hk'⟩
    refine ⟨k', ?_⟩
    rw [dropColumns_header]
    exact List.mem_filter.mpr ⟨hk', by simpa using hbc⟩
  obtain ⟨j, hj⟩ := colIdx_isSome_of_mem hmem'
  unfold DataPreparation.sortedLevels
  rw [hi, hj]
  show sortStrings (distinctStrings (presentStrs (DataPreparation.dropColumns t bad).rows j))
    = sortStrings (distinctStrings (presentStrs t.rows i))
  rw [dropColumns_presentStrs hwf hi hj hbc]

end Churn

namespace Churn

/-- Every cell of column `i` is present. -/
def ColPresent (rows : List (List Cell)) (i : Nat) : Prop :=
  ∀ r ∈ rows, ∀ c, r.get? i = some c → isPresent c = true

/-- Every cell of column `i` is a missing numeric value. -/
def ColNumAllNone (rows : List (List Cell)) (i : Nat) : Prop :=
  ∀ r ∈ rows, ∀ c, r.get? i = some c → c = Cell.num none

/-- Every cell of every row is present. -/
def AllPresentRows (rows : List (List Cell)) : Prop :=
  ∀ r ∈ rows, ∀ c ∈ r, isPresent c = true

/-- Column presence restricts to row sublists. -/
theorem ColPresent.sublist_pres {rows rows' : List (List Cell)} {i : Nat}
    (h : ColPresent rows i) (hs : List.Sublist rows' rows) : ColPresent rows' i :=
  fun r hr => h r (hs.subset hr)

/-- Column absence restricts to row sublists. -/
theorem ColNumAllNone.sublist_none {rows rows' : List (List Cell)} {i : Nat}
    (h : ColNumAllNone rows i) (hs : List.Sublist rows' rows) : ColNumAllNone rows' i :=
  fun r hr => h r (hs.subset hr)

/-- A half or quarter quantile of a nonempty value list exists. -/
theorem quantileQ_isSome {q : Q} {xs : List Q} (h : xs ≠ []) :
    ∃ y, quantileQ q xs = some y := by
  unfold quantileQ
  cases hs : sortQ xs with
  | nil => exact absurd hs (sortQ_ne_nil h)
  | cons x0 tl => exact ⟨_, rfl⟩

/-- The median of a nonempty value list exists. -/
theorem medianQ_isSome {xs : List Q} (h : xs ≠ []) : ∃ y, medianQ xs = some y :=
  quantileQ_isSome h

/-- The imputability condition of the source's `for` loop over columns: every
categorical column holds at least one present value (otherwise `mode()[0]`
raises an `IndexError`). -/
def catImputable (t : Table) : Bool :=
  (List.range t.header.length).all (fun i =>
    match t.header.get? i with
    | some (_, Kind.cat) => !(presentStrs t.rows i).isEmpty
    | _ => true)

/-- Every column of an imputable table has a fill value. -/
theorem fillValue_isSome {t : Table} (h : catImputable t = true) {i : Nat}
    (hi : i < t.header.length) : ∃ f, DataPreparation.fillValue t i = some f := by
  have hall := List.all_eq_true.mp h i (List.mem_range.mpr hi)
  unfold DataPreparation.fillValue
  cases hk : t.header.get? i with
  | none =>
    rw [List.get?_eq_getElem?] at hk
    have := List.getElem?_eq_none_iff.mp hk
    omega
  | some p =>
    cases p with
    | mk nm k =>
      cases k with
      | num => exact ⟨_, rfl⟩
      | cat =>
        rw [hk] at hall
        simp only [Bool.not_eq_true'] at hall
        have hne : presentStrs t.rows i ≠ [] := by
          intro hc
          rw [hc] at hall
          simp at hall
        obtain ⟨w, hw⟩ := modeStr_isSome hne
        exact ⟨Cell.cat (some w), by rw [hw]; rfl⟩

/-- The imputation succeeds on an imputable table. -/
theorem fillna_isSome {t : Table} (h : catImputable t = true) :
    ∃ t2, DataPreparation.fillna t = some t2 := by
  have hforall : ∀ o ∈ (List.range t.header.length).map (fun i => DataPreparation.fillValue t i),
      o ≠ none := by
    intro o ho
    rcases List.mem_map.mp ho with ⟨i, hi, rfl⟩
    obtain ⟨f, hf⟩ := fillValue_isSome h (List.mem_range.mp hi)
    rw [hf]
    exact Option.some_ne_none f
  obtain ⟨fills, hfills⟩ := seqOpts_isSome_of_forall hforall
  exact ⟨_, by unfold DataPreparation.fillna; rw [hfills]; rfl⟩

/-- Anatomy of a successful imputation: the header is unchanged and the rows
are the pointwise fill of the old rows with the collected fill values. -/
theorem fillna_eq {t t2 : Table} (h : DataPreparation.fillna t = some t2) :
    ∃ fills, DataPreparation.seqOpts
        ((List.range t.header.length).map (fun i => DataPreparation.fillValue t i)) = some fills ∧
      t2.header = t.header ∧
      t2.rows = t.rows.map (fun r => List.zipWith DataPreparation.applyFill fills r) ∧
      fills.length = t.header.length ∧
      (∀ i, i < t.header.length → fills.get? i = DataPreparation.fillValue t i) := by
  unfold DataPreparation.fillna at h
  cases hseq : DataPreparation.seqOpts
      ((List.range t.header.length).map (fun i => DataPreparation.fillValue t i)) with
  | none => rw [hseq] at h; cases h
  | some fills =>
    rw [hseq] at h
    injection h with h
    refine ⟨fills, rfl, ?_, ?_, ?_, ?_⟩
    · rw [← h]
    · rw [← h]
    · have := seqOpts_length hseq
      simpa using this
    · intro i hi
      have hget := seqOpts_get? hseq i
      rw [List.get?_eq_getElem?, List.getElem?_map] at hget
      rw [List.getElem?_range hi] at hget
      simp only [Option.map_some'] at hget
      cases hfi : fills.get? i with
      | none => rw [hfi] at hget; simp at hget
      | some f =>
        rw [hfi] at hget
        simp only [Option.map_some'] at hget
        injection hget with hget
        exact hget.symm

/-- `applyFill` never changes the kind of a cell. -/
theorem cellKind_applyFill (f c : Cell) :
    cellKind (DataPreparation.applyFill f c) = cellKind c := by
  cases c with
  | num v =>
    cases v with
    | none => cases f with
      | num w => rfl
      | cat w => rfl
    | some x => cases f <;> rfl
  | cat v =>
    cases v with
    | none => cases f with
      | num w => rfl
      | cat w => rfl
    | some x => cases f <;> rfl

/-- Kind profile of a filled row. -/
theorem map_cellKind_zipWith :
    ∀ (fills r : List Cell), r.length ≤ fills.length →
      (List.zipWith DataPreparation.applyFill fills r).map cellKind = r.map cellKind := by
  intro fills
  induction fills with
  | nil =>
    intro r hr
    have : r = [] := List.length_eq_zero.mp (Nat.le_zero.mp (by simpa using hr))
    rw [this]
    rfl
  | cons f fs ih =>
    intro r hr
    cases r with
    | nil => rfl
    | cons c cs =>
      simp only [List.zipWith_cons_cons, List.map_cons, cellKind_applyFill]
      rw [ih cs (by simpa using hr)]

end Churn

namespace Churn

/-- Anatomy of one cell of a filled row: it is the fill applied to the
original cell of the same position. -/
theorem fillna_cell {t t2 : Table} (h : DataPreparation.fillna t = some t2)
    (hwf : RowsWF t.header t.rows) {i : Nat} (hi : i < t.header.length)
    {r2 : List Cell} (hr2 : r2 ∈ t2.rows) :
    ∃ r ∈ t.rows, ∃ c fv, r.get? i = some c ∧ DataPreparation.fillValue t i = some fv ∧
      r2.get? i = some (DataPreparation.applyFill fv c) := by
  obtain ⟨fills, hseq, hhd, hrows, hflen, hfget⟩ := fillna_eq h
  rw [hrows] at hr2
  rcases List.mem_map.mp hr2 with ⟨r, hr, rfl⟩
  obtain ⟨c, hc⟩ := hwf.get_isSome hr hi
  have hfv : fills.get? i = DataPreparation.fillValue t i := hfget i hi
  cases hfi : fills.get? i with
  | none =>
    rw [List.get?_eq_getElem?] at hfi
    have := List.getElem?_eq_none_iff.mp hfi
    omega
  | some fv =>
    refine ⟨r, hr, c, fv, hc, by rw [← hfv, hfi], ?_⟩
    rw [List.get?_eq_getElem?, List.getElem?_zipWith]
    rw [List.get?_eq_getElem?] at hfi hc
    rw [hfi, hc]

/-- After a successful imputation, a categorical column is entirely
present. -/
theorem fillna_cat_present {t t2 : Table} (h : DataPreparation.fillna t = some t2)
    (hwf : RowsWF t.header t.rows) {i : Nat} {nm : String}
    (hk : t.header.get? i = some (nm, Kind.cat)) :
    ColPresent t2.rows i := by
  intro r2 hr2 c2 hc2
  have hi : i < t.header.length := by
    rw [List.get?_eq_getElem?] at hk
    exact (List.getElem?_eq_some.mp hk).1
  obtain ⟨r, hr, c, fv, hc, hfv, hr2c⟩ := fillna_cell h hwf hi hr2
  have hkc : cellKind c = Kind.cat := by
    have := hwf.kind_at hr hc
    rw [hk] at this
    simpa using this.symm
  unfold DataPreparation.fillValue at hfv
  rw [hk] at hfv
  cases hmode : modeStr (presentStrs t.rows i) with
  | none => rw [hmode] at hfv; cases hfv
  | some w =>
    rw [hmode] at hfv
    simp only [Option.map_some'] at hfv
    injection hfv with hfv
    rw [hr2c] at hc2
    injection hc2 with hc2
    cases c with
    | num v => cases hkc
    | cat v =>
      cases v with
      | none =>
        rw [← hc2, ← hfv]
        rfl
      | some s =>
        rw [← hc2, ← hfv]
        rfl

/-- After a successful imputation, a numeric column is either entirely
present or entirely missing, the latter exactly when it had no present
value to impute a median from. -/
theorem fillna_num_cases {t t2 : Table} (h : DataPreparation.fillna t = some t2)
    (hwf : RowsWF t.header t.rows) {i : Nat} {nm : String}
    (hk : t.header.get? i = some (nm, Kind.num)) :
    ColPresent t2.rows i ∨ ColNumAllNone t2.rows i := by
  have hi : i < t.header.length := by
    rw [List.get?_eq_getElem?] at hk
    exact (List.getElem?_eq_some.mp hk).1
  by_cases hp : presentNums t.rows i = []
  · refine Or.inr ?_
    intro r2 hr2 c2 hc2
    obtain ⟨r, hr, c, fv, hc, hfv, hr2c⟩ := fillna_cell h hwf hi hr2
    have hkc : cellKind c = Kind.num := by
      have := hwf.kind_at hr hc
      rw [hk] at this
      simpa using this.symm
    cases c with
    | cat v => cases hkc
    | num v =>
      cases v with
      | some x =>
        exfalso
        have : x ∈ presentNums t.rows i := by
          apply List.mem_filterMap.mpr
          exact ⟨r, hr, by rw [hc]⟩
        rw [hp] at this
        cases this
      | none =>
        unfold DataPreparation.fillValue at hfv
        rw [hk] at hfv
        injection hfv with hfv
        rw [hr2c] at hc2
        injection hc2 with hc2
        rw [← hc2, ← hfv]
        unfold medianQ quantileQ
        rw [hp]
        rfl
  · refine Or.inl ?_
    intro r2 hr2 c2 hc2
    obtain ⟨r, hr, c, fv, hc, hfv, hr2c⟩ := fillna_cell h hwf hi hr2
    have hkc : cellKind c = Kind.num := by
      have := hwf.kind_at hr hc
      rw [hk] at this
      simpa using this.symm
    obtain ⟨m, hm⟩ := medianQ_isSome hp
    unfold DataPreparation.fillValue at hfv
    rw [hk] at hfv
    injection hfv with hfv
    rw [hr2c] at hc2
    injection hc2 with hc2
    cases c with
    | cat v => cases hkc
    | num v =>
      cases v with
      | some x => rw [← hc2, ← hfv]; rfl
      | none =>
        rw [← hc2, ← hfv]
        show isPresent (Cell.num (medianQ (presentNums t.rows i))) = true
        rw [hm]
        rfl

/-- Imputation preserves well-formedness. -/
theorem fillna_WF {t t2 : Table} (h : DataPreparation.fillna t = some t2)
    (hwf : RowsWF t.header t.rows) : RowsWF t2.header t2.rows := by
  obtain ⟨fills, hseq, hhd, hrows, hflen, _⟩ := fillna_eq h
  rw [hhd, hrows]
  intro r2 hr2
  rcases List.mem_map.mp hr2 with ⟨r, hr, rfl⟩
  rw [map_cellKind_zipWith fills r (by rw [hflen, hwf.length_eq hr])]
  exact hwf r hr

end Churn

namespace Churn

/-- Deduplication yields a sublist of the rows. -/
theorem dedupAux_sublist :
    ∀ (rows : List (List Cell)) (seen : List (List Cell)),
      List.Sublist (DataPreparation.dedupAux seen rows) rows := by
  intro rows
  induction rows with
  | nil => intro seen; exact List.Sublist.refl _
  | cons r rs ih =>
    intro seen
    unfold DataPreparation.dedupAux
    by_cases hseen : seen.any (fun s => rowEq s r) = true
    · rw [if_pos hseen]
      exact (ih seen).cons r
    · rw [if_neg hseen]
      exact (ih (r :: seen)).cons₂ r

/-- `drop_duplicates` yields a sublist of the rows. -/
theorem dropDuplicates_sublist (rows : List (List Cell)) :
    List.Sublist (DataPreparation.dropDuplicates rows) rows :=
  dedupAux_sublist rows []

/-- One outlier pass yields a sublist of the rows. -/
theorem remove_outliers_sublist (rows : List (List Cell)) (i : Nat) :
    List.Sublist (DataPreparation.remove_outliers_iqr rows i) rows := by
  unfold DataPreparation.remove_outliers_iqr
  cases h1 : quantileQ ⟨1, 4⟩ (presentNums rows i) with
  | none => exact List.nil_sublist rows
  | some q1 =>
    cases h3 : quantileQ ⟨3, 4⟩ (presentNums rows i) with
    | none => exact List.nil_sublist rows
    | some q3 => exact List.filter_sublist rows

/-- An outlier pass on no rows keeps no rows. -/
theorem remove_outliers_nil (i : Nat) : DataPreparation.remove_outliers_iqr [] i = [] := by
  have := remove_outliers_sublist [] i
  exact List.sublist_nil.mp this

/-- The outlier loop on no rows keeps no rows. -/
theorem outlier_fold_nil (l : List Nat) :
    l.foldl DataPreparation.remove_outliers_iqr [] = [] := by
  induction l with
  | nil => rfl
  | cons i rest ih =>
    rw [List.foldl_cons, remove_outliers_nil]
    exact ih

/-- The outlier loop yields a sublist of the rows. -/
theorem outlier_fold_sublist (l : List Nat) :
    ∀ rows : List (List Cell),
      List.Sublist (l.foldl DataPreparation.remove_outliers_iqr rows) rows := by
  induction l with
  | nil => intro rows; exact List.Sublist.refl _
  | cons i rest ih =>
    intro rows
    rw [List.foldl_cons]
    exact (ih (DataPreparation.remove_outliers_iqr rows i)).trans
      (remove_outliers_sublist rows i)

/-- A row surviving an outlier pass on column `i` holds a present numeric
value there. -/
theorem remove_outliers_mem {rows : List (List Cell)} {i : Nat} {r : List Cell}
    (hr : r ∈ DataPreparation.remove_outliers_iqr rows i) :
    ∃ v, r.get? i = some (Cell.num (some v)) := by
  unfold DataPreparation.remove_outliers_iqr at hr
  cases h1 : quantileQ ⟨1, 4⟩ (presentNums rows i) with
  | none => rw [h1] at hr; cases hr
  | some q1 =>
    cases h3 : quantileQ ⟨3, 4⟩ (presentNums rows i) with
    | none => rw [h1, h3] at hr; cases hr
    | some q3 =>
      rw [h1, h3] at hr
      have hp := List.of_mem_filter hr
      cases hc : r.get? i with
      | none => rw [hc] at hp; cases hp
      | some c =>
        cases c with
        | cat v => rw [hc] at hp; cases hp
        | num v =>
          cases v with
          | none => rw [hc] at hp; cases hp
          | some x => exact ⟨x, rfl⟩

/-- An all-missing numeric column empties the table at its outlier pass
(the quantiles are `NaN` and every comparison with `NaN` is false). -/
theorem remove_outliers_allnone {rows : List (List Cell)} {i : Nat}
    (h : ColNumAllNone rows i) : DataPreparation.remove_outliers_iqr rows i = [] := by
  have hp : presentNums rows i = [] := by
    apply List.filterMap_eq_nil_iff.mpr
    intro r hr
    cases hc : r.get? i with
    | none => rfl
    | some c =>
      have hcn := h r hr c hc
      rw [hcn]
  unfold DataPreparation.remove_outliers_iqr
  rw [hp]
  rfl

/-- The outlier loop either empties the table or leaves every processed
column entirely present. -/
theorem outlier_fold_spec :
    ∀ (l : List Nat) (rows : List (List Cell)),
      (∀ i ∈ l, ColPresent rows i ∨ ColNumAllNone rows i) →
      (l.foldl DataPreparation.remove_outliers_iqr rows = [] ∨
        ∀ i ∈ l, ColPresent (l.foldl DataPreparation.remove_outliers_iqr rows) i) := by
  intro l
  induction l with
  | nil => intro rows _; exact Or.inr (by simp)
  | cons i0 rest ih =>
    intro rows hcols
    rw [List.foldl_cons]
    rcases hcols i0 (List.mem_cons_self _ _) with hpres | hnone
    · have hsub1 := remove_outliers_sublist rows i0
      have hpres1 : ColPresent (DataPreparation.remove_outliers_iqr rows i0) i0 := by
        intro r hr c hc
        obtain ⟨v, hv⟩ := remove_outliers_mem hr
        rw [hv] at hc
        injection hc with hc
        rw [← hc]
        rfl
      have hcols1 : ∀ i ∈ rest,
          ColPresent (DataPreparation.remove_outliers_iqr rows i0) i ∨
          ColNumAllNone (DataPreparation.remove_outliers_iqr rows i0) i := by
        intro i hi
        rcases hcols i (List.mem_cons_of_mem _ hi) with hp | hn
        · exact Or.inl (hp.sublist_pres hsub1)
        · exact Or.inr (hn.sublist_none hsub1)
      rcases ih (DataPreparation.remove_outliers_iqr rows i0) hcols1 with hnil | hall
      · exact Or.inl hnil
      · refine Or.inr ?_
        intro i hi
        rcases List.mem_cons.mp hi with rfl | hi'
        · exact hpres1.sublist_pres (outlier_fold_sublist rest _)
        · exact hall i hi'
    · rw [remove_outliers_allnone hnone, outlier_fold_nil]
      exact Or.inl rfl

end Churn

namespace Churn

/-- Setting a position to the value it already holds changes nothing. -/
theorem set_get?_self : ∀ (l : List α) (i : Nat) (a : α), l.get? i = some a → l.set i a = l := by
  intro l
  induction l with
  | nil => intro i a h; cases h
  | cons x xs ih =>
    intro i a h
    cases i with
    | zero =>
      injection h with h
      rw [List.set_cons_zero, h]
    | succ j =>
      rw [List.set_cons_succ, ih j a (by simpa using h)]

/-- In well-formed, entirely present rows, a numeric column enumerates one
present value per row. -/
theorem presentNums_length {hdr : List (String × Kind)} {rows : List (List Cell)} {i : Nat}
    {nm : String} (hwf : RowsWF hdr rows) (hall : AllPresentRows rows)
    (hk : hdr.get? i = some (nm, Kind.num)) :
    (presentNums rows i).length = rows.length := by
  have hi : i < hdr.length := by
    rw [List.get?_eq_getElem?] at hk
    exact (List.getElem?_eq_some.mp hk).1
  unfold presentNums
  rw [List.filterMap_length_eq_length]
  intro r hr
  obtain ⟨c, hc⟩ := hwf.get_isSome hr hi
  have hkc : cellKind c = Kind.num := by
    have := hwf.kind_at hr hc
    rw [hk] at this
    simpa using this.symm
  have hcp : isPresent c = true := by
    apply hall r hr
    exact List.mem_iff_get?.mpr ⟨i, hc⟩
  cases c with
  | cat v => cases hkc
  | num v =>
    cases v with
    | none => cases hcp
    | some x => rw [hc]; rfl

/-- One normalisation pass keeps every cell present, preserves
well-formedness and the number of rows, provided the rows are not a single
row (pandas' sample standard deviation of a single value is `NaN` and the
pass would blank the column). -/
theorem standardizeCol_spec {hdr : List (String × Kind)} {rows : List (List Cell)} {i : Nat}
    {nm : String} (hwf : RowsWF hdr rows) (hall : AllPresentRows rows)
    (hk : hdr.get? i = some (nm, Kind.num)) (hlen : rows.length ≠ 1) :
    AllPresentRows (DataPreparation.standardizeCol rows i) ∧
    RowsWF hdr (DataPreparation.standardizeCol rows i) ∧
    (DataPreparation.standardizeCol rows i).length = rows.length := by
  cases hrows : rows with
  | nil =>
    have hnil : DataPreparation.standardizeCol [] i = [] := rfl
    rw [hnil]
    refine ⟨?_, ?_, rfl⟩
    · intro r hr; cases hr
    · intro r hr; cases hr
  | cons r0 rows' =>
    rw [← hrows]
    have hplen : (presentNums rows i).length = rows.length := presentNums_length hwf hall hk
    have hge2 : 2 ≤ rows.length := by
      rw [hrows]
      cases rows' with
      | nil => rw [hrows] at hlen; simp at hlen
      | cons r1 rows'' => simp [Nat.succ_le_succ, Nat.le_add_left]
    have hstd : ∃ s, sampleStdQ (presentNums rows i) = some s := by
      unfold sampleStdQ
      rw [if_neg (by omega)]
      exact ⟨_, rfl⟩
    obtain ⟨s, hs⟩ := hstd
    have hrow : ∀ (g : Option Q → Option Q),
        (∀ ov, (∀ v, ov = some v → ∃ w, g ov = some w) ) →
        True := fun _ _ => trivial
    -- the three branches of the pass share the shape `rows.map step` where
    -- `step` either rewrites position `i` to a present numeric cell or
    -- leaves the row unchanged
    have main : ∀ (step : List Cell → List Cell),
        (∀ r, r ∈ rows → step r = r ∨
          ∃ w, step r = r.set i (Cell.num (some w)) ∧
            (r.map cellKind).get? i = some Kind.num) →
        AllPresentRows (rows.map step) ∧ RowsWF hdr (rows.map step) ∧
          (rows.map step).length = rows.length := by
      intro step hstep
      refine ⟨?_, ?_, by simp⟩
      · intro r hr c hc
        rcases List.mem_map.mp hr with ⟨r', hr', rfl⟩
        rcases hstep r' hr' with heq | ⟨w, heq, _⟩
        · rw [heq] at hc
          exact hall r' hr' c hc
        · rw [heq] at hc
          rcases List.mem_or_eq_of_mem_set hc with hc' | rfl
          · exact hall r' hr' c hc'
          · rfl
      · intro r hr
        rcases List.mem_map.mp hr with ⟨r', hr', rfl⟩
        rcases hstep r' hr' with heq | ⟨w, heq, hkind⟩
        · rw [heq]
          exact hwf r' hr'
        · rw [heq, List.map_set]
          have : ((r'.map cellKind).set i (cellKind (Cell.num (some w))))
              = (r'.map cellKind) := by
            apply set_get?_self
            exact hkind
          rw [this]
          exact hwf r' hr'
    simp only [DataPreparation.standardizeCol, hs]
    by_cases hz : qisZero s = true
    · rw [if_pos hz]
      apply main
      intro r hr
      cases hc : r.get? i with
      | none => exact Or.inl rfl
      | some c =>
        cases c with
        | cat v => exact Or.inl rfl
        | num v =>
          refine Or.inr ⟨qint 0, rfl, ?_⟩
          rw [List.get?_eq_getElem?, List.getElem?_map]
          rw [List.get?_eq_getElem?] at hc
          rw [hc]
          rfl
    · rw [if_neg hz]
      apply main
      intro r hr
      cases hc : r.get? i with
      | none => exact Or.inl rfl
      | some c =>
        cases c with
        | cat v => exact Or.inl rfl
        | num v =>
          cases v with
          | none =>
            exfalso
            have hcp : isPresent (Cell.num none) = true := by
              apply hall r hr
              exact List.mem_iff_get?.mpr ⟨i, hc⟩
            cases hcp
          | some x =>
            refine Or.inr ⟨_, rfl, ?_⟩
            rw [List.get?_eq_getElem?, List.getElem?_map]
            rw [List.get?_eq_getElem?] at hc
            rw [hc]
            rfl

end Churn

namespace Churn

/-- Kind profile of a row after dropping columns. -/
theorem zip_filter_kinds (bad : List String) :
    ∀ (hdr : List (String × Kind)) (r : List Cell),
      r.map cellKind = hdr.map (·.2) →
      (((hdr.zip r).filter (fun p => !(bad.contains p.1.1))).map (·.2)).map cellKind
        = (hdr.filter (fun h => !(bad.contains h.1))).map (·.2) := by
  intro hdr
  induction hdr with
  | nil =>
    intro r hr
    have : r = [] := by
      cases r with
      | nil => rfl
      | cons c cs => simp at hr
    rw [this]
    rfl
  | cons h hdr' ih =>
    intro r hr
    cases r with
    | nil => simp at hr
    | cons c cs =>
      simp only [List.map_cons, List.cons.injEq] at hr
      obtain ⟨hk, hr'⟩ := hr
      rw [List.zip_cons_cons]
      by_cases hb : h.1 ∈ bad
      · rw [List.filter_cons_of_neg (by simpa using hb), List.filter_cons_of_neg (by simpa using hb)]
        exact ih cs hr'
      · rw [List.filter_cons_of_pos (by simpa using hb), List.filter_cons_of_pos (by simpa using hb)]
        simp only [List.map_cons]
        rw [ih cs hr', hk]

/-- Dropping columns preserves well-formedness. -/
theorem dropColumns_WF {t : Table} {bad : List String} (hwf : RowsWF t.header t.rows) :
    RowsWF (DataPreparation.dropColumns t bad).header (DataPreparation.dropColumns t bad).rows := by
  rw [dropColumns_header, dropColumns_rows]
  intro r2 hr2
  rcases List.mem_map.mp hr2 with ⟨r, hr, rfl⟩
  exact zip_filter_kinds bad t.header r (hwf r hr)

/-- The second components of filtered name–cell pairs come from the row. -/
theorem mem_of_zip_filter {hdr : List (String × Kind)} {r : List Cell}
    {p : (String × Kind) × Cell → Bool} {c : Cell}
    (h : c ∈ ((hdr.zip r).filter p).map (·.2)) : c ∈ r := by
  rcases List.mem_map.mp h with ⟨pair, hpair, rfl⟩
  exact (List.of_mem_zip (List.mem_of_mem_filter hpair)).2

/-- Dropping columns keeps every cell present. -/
theorem dropColumns_allPresent {t : Table} {bad : List String}
    (h : AllPresentRows t.rows) : AllPresentRows (DataPreparation.dropColumns t bad).rows := by
  rw [dropColumns_rows]
  intro r2 hr2 c hc
  rcases List.mem_map.mp hr2 with ⟨r, hr, rfl⟩
  exact h r hr c (mem_of_zip_filter hc)

/-- One-hot indicator cells are always present. -/
theorem dummyCellsFor_present {t : Table} {c : String} {cell : Cell} {d : Cell}
    (h : d ∈ DataPreparation.dummyCellsFor t c cell) : isPresent d = true := by
  unfold DataPreparation.dummyCellsFor at h
  rcases List.mem_map.mp h with ⟨v, _, rfl⟩
  cases cell with
  | cat w =>
    cases w with
    | none => rfl
    | some s =>
      by_cases hv : (s == v) = true
      · simp only [hv, if_true]; rfl
      · simp only [hv, if_false]; rfl
  | num w => rfl

/-- One-hot encoding keeps every cell present. -/
theorem getDummies_allPresent {t : Table} {enc : List String}
    (h : AllPresentRows t.rows) : AllPresentRows (DataPreparation.getDummies t enc).rows := by
  intro r2 hr2 c hc
  rcases List.mem_map.mp hr2 with ⟨r, hr, rfl⟩
  rcases List.mem_append.mp hc with hl | hrt
  · exact h r hr c (mem_of_zip_filter hl)
  · rcases List.mem_flatMap.mp hrt with ⟨pair, hpair, hd⟩
    exact dummyCellsFor_present hd

/-- Label encoding keeps every cell present. -/
theorem labelEncode_allPresent {t : Table} {enc : List String}
    (h : AllPresentRows t.rows) : AllPresentRows (DataPreparation.labelEncode t enc).rows := by
  intro r2 hr2 c hc
  rcases List.mem_map.mp hr2 with ⟨r, hr, rfl⟩
  rcases List.mem_map.mp hc with ⟨pair, hpair, rfl⟩
  obtain ⟨ph, pc⟩ := pair
  by_cases he : enc.contains ph.1 = true
  · rw [if_pos he]
    rfl
  · rw [if_neg he]
    exact h r hr pc (List.of_mem_zip hpair).2

/-- The full categorical routing keeps every cell present. -/
theorem processCategoricals_allPresent {t : Table}
    (h : AllPresentRows t.rows) : AllPresentRows (DataPreparation.processCategoricals t).rows :=
  labelEncode_allPresent (getDummies_allPresent (dropColumns_allPresent h))

/-- A table whose cells are all present has no missing values. -/
theorem missingCount_eq_zero {t : Table} (h : AllPresentRows t.rows) :
    missingCount t = 0 := by
  unfold missingCount
  apply List.sum_eq_zero
  intro x hx
  rcases List.mem_map.mp hx with ⟨r, hr, rfl⟩
  apply List.countP_eq_zero.mpr
  intro c hc
  rw [h r hr c hc]
  intro hcon
  cases hcon

/-- Membership in the numeric-column index list. -/
theorem mem_numericIdxs {t : Table} {i : Nat} :
    i ∈ DataPreparation.numericIdxs t ↔
      i < t.header.length ∧ ∃ nm, t.header.get? i = some (nm, Kind.num) := by
  unfold DataPreparation.numericIdxs
  rw [List.mem_filter, List.mem_range]
  apply and_congr_right
  intro _
  cases hk : t.header.get? i with
  | none => simp [hk]
  | some p =>
    cases p with
    | mk nm k =>
      cases k with
      | num => simp [hk]
      | cat => simp [hk]

/-- Rows whose every column is present are entirely present. -/
theorem allPresent_of_cols {hdr : List (String × Kind)} {rows : List (List Cell)}
    (hwf : RowsWF hdr rows) (h : ∀ i, i < hdr.length → ColPresent rows i) :
    AllPresentRows rows := by
  intro r hr c hc
  rcases List.mem_iff_get?.mp hc with ⟨i, hi⟩
  have hilen : i < hdr.length := by
    rw [← hwf.length_eq hr]
    rw [List.get?_eq_getElem?] at hi
    exact (List.getElem?_eq_some.mp hi).1
  exact h i hilen r hr c hi

/-- The normalisation loop keeps every cell present and preserves
well-formedness and the number of rows. -/
theorem standardize_fold_spec {hdr : List (String × Kind)} :
    ∀ (l : List Nat) (rows : List (List Cell)),
      RowsWF hdr rows →
      (∀ i ∈ l, ∃ nm, hdr.get? i = some (nm, Kind.num)) →
      AllPresentRows rows → rows.length ≠ 1 →
      AllPresentRows (l.foldl DataPreparation.standardizeCol rows) ∧
      RowsWF hdr (l.foldl DataPreparation.standardizeCol rows) ∧
      (l.foldl DataPreparation.standardizeCol rows).length = rows.length := by
  intro l
  induction l with
  | nil => intro rows hwf _ hall hlen; exact ⟨hall, hwf, rfl⟩
  | cons i0 rest ih =>
    intro rows hwf hnum hall hlen
    obtain ⟨nm, hk⟩ := hnum i0 (List.mem_cons_self _ _)
    obtain ⟨hall1, hwf1, hlen1⟩ := standardizeCol_spec hwf hall hk hlen
    rw [List.foldl_cons]
    obtain ⟨ha, hb, hc⟩ := ih (DataPreparation.standardizeCol rows i0) hwf1
      (fun i hi => hnum i (List.mem_cons_of_mem _ hi)) hall1 (by rw [hlen1]; exact hlen)
    exact ⟨ha, hb, by rw [hc, hlen1]⟩

end Churn

open Churn Churn.DataPreparation in
/-- **C6** (counterexample).  The claim states the output of the
cleaning/encoding transform has zero missing values.  On the one-row table
with the single numeric column `Age = 5`, the normalisation step divides by
the sample standard deviation of one value — `NaN` under pandas' `ddof=1` —
so the cleaned output contains exactly one missing value. -/
theorem prepare_data_single_row_missing_value :
    (prepare_data ⟨[("Age", Kind.num)], [[Cell.num (some (qint 5))]]⟩).map missingCount
      = some 1 := by
  decide

open Churn Churn.DataPreparation in
/-- **C6** (amended).  On a well-formed table whose categorical columns
(after the fixed identifier drop) each hold at least one present value — the
source's `mode()[0]` raises otherwise — and whose deduplicated,
outlier-trimmed row count is not exactly one — the sample standard deviation
of a single value is `NaN` and blanks every numeric column otherwise —
`prepare_data` succeeds and its output has no missing value.  (Zero
duplicate rows is *not* guaranteed: deduplication happens before columns are
dropped or encoded, so rows that differed only in a dropped column coincide
in the output.) -/
theorem prepare_data_output_missing_free (t : Table)
    (hwf : RowsWF t.header t.rows)
    (hcat : catImputable (dropColumns t colsToDropList) = true)
    (hone : (afterOutliers t).map (fun u => u.rows.length) ≠ some 1) :
    ∃ out, prepare_data t = some out ∧ missingCount out = 0 := by
  obtain ⟨t2, h2⟩ := fillna_isSome hcat
  have hwf1 : RowsWF (dropColumns t colsToDropList).header (dropColumns t colsToDropList).rows :=
    dropColumns_WF hwf
  have hwf2 : RowsWF t2.header t2.rows := fillna_WF h2 hwf1
  obtain ⟨fills, _, hhd2, _, _, _⟩ := fillna_eq h2
  have hao : afterOutliers t = some ⟨t2.header,
      (numericIdxs t2).foldl remove_outliers_iqr (dropDuplicates t2.rows)⟩ := by
    unfold afterOutliers
    rw [h2]
    rfl
  have hlen4 : ((numericIdxs t2).foldl remove_outliers_iqr (dropDuplicates t2.rows)).length
      ≠ 1 := by
    intro hc
    apply hone
    rw [hao]
    simp only [Option.map_some']
    rw [hc]
  have hsub3 : List.Sublist (dropDuplicates t2.rows) t2.rows := dropDuplicates_sublist t2.rows
  have hsub4 : List.Sublist
      ((numericIdxs t2).foldl remove_outliers_iqr (dropDuplicates t2.rows))
      (dropDuplicates t2.rows) := outlier_fold_sublist _ _
  have hwf3 : RowsWF t2.header (dropDuplicates t2.rows) := hwf2.sublist_rows hsub3
  have hwf4 : RowsWF t2.header
      ((numericIdxs t2).foldl remove_outliers_iqr (dropDuplicates t2.rows)) :=
    hwf3.sublist_rows hsub4
  have hcatcol : ∀ i nm, t2.header.get? i = some (nm, Kind.cat) → ColPresent t2.rows i := by
    intro i nm hk
    exact fillna_cat_present h2 hwf1 (by rw [← hhd2]; exact hk)
  have hnumcol : ∀ i nm, t2.header.get? i = some (nm, Kind.num) →
      ColPresent t2.rows i ∨ ColNumAllNone t2.rows i := by
    intro i nm hk
    exact fillna_num_cases h2 hwf1 (by rw [← hhd2]; exact hk)
  have hcols3 : ∀ i ∈ numericIdxs t2,
      ColPresent (dropDuplicates t2.rows) i ∨ ColNumAllNone (dropDuplicates t2.rows) i := by
    intro i hi
    obtain ⟨hilt, nm, hk⟩ := mem_numericIdxs.mp hi
    rcases hnumcol i nm hk with hp | hn
    · exact Or.inl (hp.sublist_pres hsub3)
    · exact Or.inr (hn.sublist_none hsub3)
  have hall4 : AllPresentRows
      ((numericIdxs t2).foldl remove_outliers_iqr (dropDuplicates t2.rows)) := by
    rcases outlier_fold_spec (numericIdxs t2) (dropDuplicates t2.rows) hcols3 with hnil | hallcols
    · rw [hnil]
      intro r hr
      cases hr
    · apply allPresent_of_cols hwf4
      intro i hi
      cases hk : t2.header.get? i with
      | none =>
        exfalso
        rw [List.get?_eq_getElem?] at hk
        have := List.getElem?_eq_none_iff.mp hk
        omega
      | some p =>
        obtain ⟨nm, k⟩ := p
        cases k with
        | num => exact hallcols i (mem_numericIdxs.mpr ⟨hi, nm, hk⟩)
        | cat => exact (hcatcol i nm hk).sublist_pres (hsub4.trans hsub3)
  have hnum5 : ∀ i ∈ numericIdxs t2, ∃ nm, t2.header.get? i = some (nm, Kind.num) :=
    fun i hi => (mem_numericIdxs.mp hi).2
  obtain ⟨hall5, _, _⟩ := standardize_fold_spec (numericIdxs t2)
    ((numericIdxs t2).foldl remove_outliers_iqr (dropDuplicates t2.rows))
    hwf4 hnum5 hall4 hlen4
  refine ⟨processCategoricals ⟨t2.header, (numericIdxs t2).foldl standardizeCol
      ((numericIdxs t2).foldl remove_outliers_iqr (dropDuplicates t2.rows))⟩, ?_, ?_⟩
  · unfold prepare_data
    rw [hao]
    rfl
  · exact missingCount_eq_zero (processCategoricals_allPresent hall5)

open Churn Churn.DataPreparation in
/-- Instantiation of the amended cleaning theorem at a concrete two-row
table with one numeric and one categorical column. -/
theorem prepare_data_output_missing_free_witness :
    catImputable (dropColumns ⟨[("Age", Kind.num), ("Dept", Kind.cat)],
      [[Cell.num (some (qint 1)), Cell.cat (some "A")],
       [Cell.num (some (qint 2)), Cell.cat (some "B")]]⟩ colsToDropList) = true ∧
    (afterOutliers ⟨[("Age", Kind.num), ("Dept", Kind.cat)],
      [[Cell.num (some (qint 1)), Cell.cat (some "A")],
       [Cell.num (some (qint 2)), Cell.cat (some "B")]]⟩).map (fun u => u.rows.length)
      ≠ some 1 ∧
    ∃ out, prepare_data ⟨[("Age", Kind.num), ("Dept", Kind.cat)],
      [[Cell.num (some (qint 1)), Cell.cat (some "A")],
       [Cell.num (some (qint 2)), Cell.cat (some "B")]]⟩ = some out ∧
      missingCount out = 0 :=
  ⟨by decide, by decide,
    prepare_data_output_missing_free
      ⟨[("Age", Kind.num), ("Dept", Kind.cat)],
        [[Cell.num (some (qint 1)), Cell.cat (some "A")],
         [Cell.num (some (qint 2)), Cell.cat (some "B")]]⟩
      (by intro r hr; fin_cases hr <;> rfl) (by decide) (by decide)⟩

namespace Churn

/-- Label encoding renames no column. -/
theorem labelEncode_colNames (t : Table) (enc : List String) :
    colNames (DataPreparation.labelEncode t enc) = colNames t := by
  unfold colNames DataPreparation.labelEncode
  simp only [List.map_map]
  apply List.map_congr_left
  intro h _
  show (if enc.contains h.1 then ((h.1, Kind.num) : String × Kind) else h).1 = h.1
  by_cases he : enc.contains h.1 = true
  · rw [if_pos he]
  · rw [if_neg he]

/-- Under distinct column names, two header entries of the same name carry
the same kind. -/
theorem kind_unique_of_nodup {hdr : List (String × Kind)} {c : String} {k1 k2 : Kind}
    (hnd : (hdr.map (·.1)).Nodup) (h1 : (c, k1) ∈ hdr) (h2 : (c, k2) ∈ hdr) : k1 = k2 := by
  induction hdr with
  | nil => cases h1
  | cons h rest ih =>
    simp only [List.map_cons, List.nodup_cons] at hnd
    rcases List.mem_cons.mp h1 with rfl | h1'
    · rcases List.mem_cons.mp h2 with heq | h2'
      · exact (congrArg Prod.snd heq).symm
      · exfalso
        exact hnd.1 (List.mem_map.mpr ⟨(c, k2), h2', rfl⟩)
    · rcases List.mem_cons.mp h2 with rfl | h2'
      · exfalso
        exact hnd.1 (List.mem_map.mpr ⟨(c, k1), h1', rfl⟩)
      · exact ih hnd.2 h1' h2'

/-- For a categorical column (under distinct names), the number of sorted
levels is its distinct-value count. -/
theorem sortedLevels_length {t : Table} {c : String}
    (hnd : (colNames t).Nodup) (hc : (c, Kind.cat) ∈ t.header) :
    (DataPreparation.sortedLevels t c).length = DataPreparation.nuniqueOf t c := by
  obtain ⟨i, hi⟩ := colIdx_isSome_of_mem ⟨Kind.cat, hc⟩
  obtain ⟨k0, hk0⟩ := colIdx_get? hi
  have hk0mem : (c, k0) ∈ t.header := List.get?_mem hk0
  have : k0 = Kind.cat := kind_unique_of_nodup hnd hk0mem hc
  subst this
  unfold DataPreparation.sortedLevels DataPreparation.nuniqueOf
  rw [hi]
  show (sortStrings (distinctStrings (presentStrs t.rows i))).length
    = match t.header.get? i with
      | some (_, Kind.num) => (distinctQs (presentNums t.rows i)).length
      | _ => (distinctStrings (presentStrs t.rows i)).length
  rw [hk0]
  exact sortStrings_length _

/-- A categorical header entry contributes its name to `catNames`. -/
theorem mem_catNames {t : Table} {c : String} (hc : (c, Kind.cat) ∈ t.header) :
    c ∈ DataPreparation.catNames t := by
  unfold DataPreparation.catNames
  exact List.mem_map.mpr ⟨(c, Kind.cat), List.mem_filter.mpr ⟨hc, by simp⟩, rfl⟩

/-- Membership in the one-hot routing list. -/
theorem mem_oneHotCols {t : Table} {c : String} :
    c ∈ DataPreparation.oneHotCols t ↔
      c ∈ DataPreparation.catNames t ∧ DataPreparation.nuniqueOf t c ≤ 20 := by
  unfold DataPreparation.oneHotCols
  rw [List.mem_filter]
  simp

/-- Membership in the label-encoding routing list. -/
theorem mem_labelEncCols {t : Table} {c : String} :
    c ∈ DataPreparation.labelEncCols t ↔
      c ∈ DataPreparation.catNames t ∧ ¬(DataPreparation.nuniqueOf t c ≤ 20) ∧
        DataPreparation.nuniqueOf t c ≤ 50 := by
  unfold DataPreparation.labelEncCols
  rw [List.mem_filter]
  simp [and_assoc]

/-- Membership in the drop routing list. -/
theorem mem_dropHighCols {t : Table} {c : String} :
    c ∈ DataPreparation.dropHighCols t ↔
      c ∈ DataPreparation.catNames t ∧ ¬(DataPreparation.nuniqueOf t c ≤ 50) := by
  unfold DataPreparation.dropHighCols
  rw [List.mem_filter]
  simp

end Churn

namespace Churn

/-- Membership of a name among the columns produced by one-hot encoding:
either a kept (non-encoded) column or an indicator column of an encoded
one. -/
theorem mem_colNames_getDummies {ta : Table} {e : List String} {d : String} :
    d ∈ colNames (DataPreparation.getDummies ta e) ↔
      (∃ h ∈ ta.header, (e.contains h.1) = false ∧ h.1 = d) ∨
      (∃ h ∈ ta.header, (e.contains h.1) = true ∧
        d ∈ DataPreparation.dummyNamesFor ta h.1) := by
  unfold colNames DataPreparation.getDummies
  rw [List.map_append, List.mem_append]
  constructor
  · rintro (hl | hr)
    · rcases List.mem_map.mp hl with ⟨h, hh, rfl⟩
      obtain ⟨hmem, hpred⟩ := List.mem_filter.mp hh
      refine Or.inl ⟨h, hmem, ?_, rfl⟩
      cases hcb : e.contains h.1
      · rfl
      · rw [hcb] at hpred; cases hpred
    · rcases List.mem_map.mp hr with ⟨pair, hpair, rfl⟩
      rcases List.mem_flatMap.mp hpair with ⟨h, hh, hd⟩
      obtain ⟨hmem, hpred⟩ := List.mem_filter.mp hh
      rcases List.mem_map.mp hd with ⟨nm2, hnm2, rfl⟩
      exact Or.inr ⟨h, hmem, hpred, hnm2⟩
  · rintro (⟨h, hmem, hcf, rfl⟩ | ⟨h, hmem, hct, hd⟩)
    · refine Or.inl (List.mem_map.mpr ⟨h, List.mem_filter.mpr ⟨hmem, ?_⟩, rfl⟩)
      rw [hcf]
      rfl
    · refine Or.inr (List.mem_map.mpr ⟨(d, Kind.num), ?_, rfl⟩)
      exact List.mem_flatMap.mpr ⟨h, List.mem_filter.mpr ⟨hmem, hct⟩,
        List.mem_map.mpr ⟨d, hd, rfl⟩⟩

end Churn

open Churn Churn.DataPreparation in
/-- **C7** (counterexample).  The claim states a categorical column with at
most 20 distinct values becomes one-hot indicator columns, and that the
column is absent only when its count exceeds 50.  On a table whose only
column `Dept` holds the single level `"A"` (distinct count 1, well under
20), `get_dummies(..., drop_first=True)` drops the only level: the cleaned
output has no column at all — `Dept` is gone and no indicator column
exists, although 1 ≤ 20. -/
theorem single_level_categorical_dropped :
    (prepare_data ⟨[("Dept", Kind.cat)], [[Cell.cat (some "A")], [Cell.cat (some "A")]]⟩).map
        colNames = some [] ∧
    nuniqueOf ⟨[("Dept", Kind.cat)], [[Cell.cat (some "A")], [Cell.cat (some "A")]]⟩ "Dept"
      = 1 := by
  refine ⟨by decide, by decide⟩

open Churn Churn.DataPreparation in
/-- **C7** (amended).  For a categorical column `c` of the routing-stage
table (distinct column names; the generated indicator names clash with no
original column name), the outcome is determined by the distinct-value
count `n` observed at routing time: 21 ≤ n ≤ 50 gives a single
label-encoded integer column named `c`; n ≤ 20 or n > 50 removes column `c`
itself; 2 ≤ n ≤ 20 additionally creates the (nonempty) indicator columns,
one per level beyond the first; and n = 1 creates no indicator column at
all, so the column vanishes entirely even though its count is below the
one-hot threshold. -/
theorem categorical_routing_by_cardinality (t : Table) (c : String)
    (hwf : RowsWF t.header t.rows)
    (hnd : (colNames t).Nodup)
    (hc : (c, Kind.cat) ∈ t.header)
    (hfresh : ∀ h ∈ (dropColumns t (dropHighCols t)).header,
      ∀ d ∈ dummyNamesFor (dropColumns t (dropHighCols t)) h.1, d ∉ colNames t) :
    (21 ≤ nuniqueOf t c ∧ nuniqueOf t c ≤ 50 →
      (c, Kind.num) ∈ (processCategoricals t).header) ∧
    (nuniqueOf t c ≤ 20 ∨ 50 < nuniqueOf t c →
      c ∉ colNames (processCategoricals t)) ∧
    (2 ≤ nuniqueOf t c ∧ nuniqueOf t c ≤ 20 →
      dummyNamesFor t c ≠ [] ∧
      ∀ d ∈ dummyNamesFor t c, d ∈ colNames (processCategoricals t)) ∧
    (nuniqueOf t c = 1 → dummyNamesFor t c = []) := by
  have hcat : c ∈ catNames t := mem_catNames hc
  have hlev := sortedLevels_length hnd hc
  refine ⟨?_, ?_, ?_, ?_⟩
  · rintro ⟨h21, h50⟩
    have hnotdrop : c ∉ dropHighCols t := by
      rw [mem_dropHighCols]
      rintro ⟨_, hgt⟩
      exact hgt h50
    have hta : (c, Kind.cat) ∈ (dropColumns t (dropHighCols t)).header := by
      rw [dropColumns_header]
      exact List.mem_filter.mpr ⟨hc, by simpa using hnotdrop⟩
    have hnotone : c ∉ oneHotCols t := by
      rw [mem_oneHotCols]
      rintro ⟨_, hle⟩
      omega
    have htb : (c, Kind.cat) ∈ (getDummies (dropColumns t (dropHighCols t))
        (oneHotCols t)).header := by
      unfold getDummies
      apply List.mem_append.mpr
      refine Or.inl (List.mem_filter.mpr ⟨hta, ?_⟩)
      simpa using hnotone
    have hlab : c ∈ labelEncCols t := mem_labelEncCols.mpr ⟨hcat, by omega, h50⟩
    unfold processCategoricals labelEncode
    apply List.mem_map.mpr
    refine ⟨(c, Kind.cat), htb, ?_⟩
    rw [if_pos (by simpa using hlab)]
  · intro hn
    rw [show colNames (processCategoricals t)
        = colNames (getDummies (dropColumns t (dropHighCols t)) (oneHotCols t))
      from labelEncode_colNames _ _]
    rw [mem_colNames_getDummies]
    rintro (⟨h, hmem, hcf, rfl⟩ | ⟨h, hmem, _, hd⟩)
    · rw [dropColumns_header] at hmem
      obtain ⟨hmem', hpred⟩ := List.mem_filter.mp hmem
      rcases hn with hle | hgt
      · have : h.1 ∈ oneHotCols t := mem_oneHotCols.mpr ⟨hcat, hle⟩
        have : (oneHotCols t).contains h.1 = true := by simpa using this
        rw [this] at hcf
        cases hcf
      · have hdrop : h.1 ∈ dropHighCols t := mem_dropHighCols.mpr ⟨hcat, by omega⟩
        have : (dropHighCols t).contains h.1 = true := by simpa using hdrop
        rw [this] at hpred
        cases hpred
    · rw [dropColumns_header] at hmem
      exact hfresh h (by rw [dropColumns_header]; exact hmem) c hd
        (List.mem_map.mpr ⟨(c, Kind.cat), hc, rfl⟩)
  · rintro ⟨h2, h20⟩
    have hnotdrop : c ∉ dropHighCols t := by
      rw [mem_dropHighCols]
      rintro ⟨_, hgt⟩
      exact hgt (by omega)
    have hta : (c, Kind.cat) ∈ (dropColumns t (dropHighCols t)).header := by
      rw [dropColumns_header]
      exact List.mem_filter.mpr ⟨hc, by simpa using hnotdrop⟩
    have hbc : (dropHighCols t).contains c = false := by
      cases hcb : (dropHighCols t).contains c
      · rfl
      · exact absurd (by simpa using hcb) hnotdrop
    have hlevels : sortedLevels (dropColumns t (dropHighCols t)) c = sortedLevels t c :=
      dropColumns_sortedLevels hwf ⟨Kind.cat, hc⟩ hbc
    have hdn : dummyNamesFor (dropColumns t (dropHighCols t)) c = dummyNamesFor t c := by
      unfold dummyNamesFor
      rw [hlevels]
    have hone : c ∈ oneHotCols t := mem_oneHotCols.mpr ⟨hcat, h20⟩
    constructor
    · intro hnil
      have : (dummyNamesFor t c).length = 0 := by rw [hnil]; rfl
      unfold dummyNamesFor at this
      rw [List.length_map, List.length_drop, hlev] at this
      omega
    · intro d hd
      rw [show colNames (processCategoricals t)
          = colNames (getDummies (dropColumns t (dropHighCols t)) (oneHotCols t))
        from labelEncode_colNames _ _]
      rw [mem_colNames_getDummies]
      refine Or.inr ⟨(c, Kind.cat), hta, by simpa using hone, ?_⟩
      rw [hdn]
      exact hd
  · intro h1
    unfold dummyNamesFor
    have : (sortedLevels t c).length = 1 := by rw [hlev, h1]
    obtain ⟨a, ha⟩ := List.length_eq_one.mp this
    rw [ha]
    rfl

open Churn Churn.DataPreparation in
/-- Instantiation of the routing theorem on a two-level categorical column:
it is one-hot encoded into one indicator column. -/
theorem categorical_routing_by_cardinality_witness :
    (2 ≤ nuniqueOf ⟨[("Dept", Kind.cat)], [[Cell.cat (some "A")], [Cell.cat (some "B")]]⟩
        "Dept" ∧
      nuniqueOf ⟨[("Dept", Kind.cat)], [[Cell.cat (some "A")], [Cell.cat (some "B")]]⟩
        "Dept" ≤ 20) ∧
    dummyNamesFor ⟨[("Dept", Kind.cat)], [[Cell.cat (some "A")], [Cell.cat (some "B")]]⟩
        "Dept" ≠ [] ∧
    ∀ d ∈ dummyNamesFor ⟨[("Dept", Kind.cat)], [[Cell.cat (some "A")], [Cell.cat (some "B")]]⟩
        "Dept",
      d ∈ colNames (processCategoricals
        ⟨[("Dept", Kind.cat)], [[Cell.cat (some "A")], [Cell.cat (some "B")]]⟩) :=
  ⟨by decide,
    (categorical_routing_by_cardinality
      ⟨[("Dept", Kind.cat)], [[Cell.cat (some "A")], [Cell.cat (some "B")]]⟩ "Dept"
      (by intro r hr; fin_cases hr <;> rfl) (by decide) (by decide)
      (by decide)).2.2.1 (by decide)⟩

namespace Churn.DataValidation

/-!
### Quality validator

`validate_data` (`src/validation/data_validation.py`, lines 32–75) reads a
CSV and builds a flat report inside one `try` block; any exception is caught
and stored under the `error` key (line 72–73).  The input is modelled as the
outcome of `pd.read_csv`: `Except.error e` when reading raises with message
`e`, `Except.ok t` when it yields the table `t`.  The `Age` range check
compares the column against integers, which raises a `TypeError` inside the
`try` when the column is non-numeric; the marker string `"TypeError"` stands
for the `str(e)` of that exception.
-/

/-- The flat report record; a field is `none` when the corresponding key was
never written. -/
structure QualityReport where
  total_rows : Option Nat
  total_columns : Option Nat
  missing_values : Option (List (String × Nat))
  duplicate_rows : Option Nat
  invalid_age_rows : Option Nat
  employee_number_unique : Option Bool
  error : Option String
deriving DecidableEq, Repr

/-- Missing-value count of column `i` (`df.isnull().sum()` per column). -/
def missingPerCol (t : Table) (i : Nat) : Nat :=
  t.rows.countP (fun r =>
    match r.get? i with
    | some c => !(isPresent c)
    | none => false)

/-- The `missing_values` entry: only columns with a positive missing count
(line 54). -/
def missingReport (t : Table) : List (String × Nat) :=
  (List.range t.header.length).filterMap (fun i =>
    match t.header.get? i with
    | some (nm, _) => if 0 < missingPerCol t i then some (nm, missingPerCol t i) else none
    | none => none)

/-- `df[col].nunique()` at a column index (pandas excludes missing values). -/
def nuniqueAt (t : Table) (i : Nat) : Nat :=
  match t.header.get? i with
  | some (_, Kind.num) => (distinctQs (presentNums t.rows i)).length
  | _ => (distinctStrings (presentStrs t.rows i)).length

/-- Rows whose `Age` lies outside `[18, 65]` (lines 61–63); missing values
compare false and are not counted. -/
def invalidAgeCount (t : Table) (i : Nat) : Nat :=
  t.rows.countP (fun r =>
    match r.get? i with
    | some (Cell.num (some v)) => qlt v (qnat 18) || qlt (qnat 65) v
    | _ => false)

/-- The `EmployeeNumber` uniqueness check (lines 65–68), applied when the
column exists. -/
def withEmployeeCheck (t : Table) (rep : QualityReport) : QualityReport :=
  match colIdx t.header "EmployeeNumber" with
  | some i =>
      { rep with employee_number_unique := some (decide (nuniqueAt t i = t.rows.length)) }
  | none => rep

/-- `validate_data` (lines 32–75): build the report field by field inside a
`try`; a read failure or a `TypeError` from the `Age` comparison lands in
the `error` field, keeping the fields computed so far and skipping the
rest; a check whose column is absent is skipped silently. -/
def validate_data (input : Except String Table) : QualityReport :=
  match input with
  | .error e => ⟨none, none, none, none, none, none, some e⟩
  | .ok t =>
      let base : QualityReport :=
        ⟨some t.rows.length, some t.header.length, some (missingReport t),
          some (t.rows.length - (DataPreparation.dropDuplicates t.rows).length),
          none, none, none⟩
      match colIdx t.header "Age" with
      | some i =>
          match t.header.get? i with
          | some (_, Kind.num) =>
              withEmployeeCheck t { base with invalid_age_rows := some (invalidAgeCount t i) }
          | _ => { base with error := some "TypeError" }
      | none => withEmployeeCheck t base

end Churn.DataValidation

open Churn Churn.DataValidation in
/-- **C8** (confirmed).  The validator always returns a report record: a
read failure yields a report holding only the error message; on a table it
always carries the row count, column count, positive missing-value census
and duplicate count; a missing `Age` column merely omits the age check (and
no error arises from its absence), and a missing `EmployeeNumber` column
merely omits the uniqueness flag. -/
theorem validate_data_always_reports (input : Except String Table) :
    (∀ e, input = .error e →
      validate_data input = ⟨none, none, none, none, none, none, some e⟩) ∧
    (∀ t, input = .ok t →
      (validate_data input).total_rows = some t.rows.length ∧
      (validate_data input).total_columns = some t.header.length ∧
      (validate_data input).missing_values = some (missingReport t) ∧
      (validate_data input).duplicate_rows
        = some (t.rows.length - (DataPreparation.dropDuplicates t.rows).length) ∧
      (colIdx t.header "Age" = none →
        (validate_data input).invalid_age_rows = none ∧ (validate_data input).error = none) ∧
      (colIdx t.header "EmployeeNumber" = none →
        (validate_data input).employee_number_unique = none)) := by
  refine ⟨fun e he => by subst he; rfl, fun t ht => ?_⟩
  subst ht
  cases hA : colIdx t.header "Age" with
  | none =>
    cases hE : colIdx t.header "EmployeeNumber" with
    | none =>
      refine ⟨?_, ?_, ?_, ?_, fun _ => ⟨?_, ?_⟩, fun _ => ?_⟩ <;>
        simp [validate_data, hA, withEmployeeCheck, hE]
    | some j =>
      refine ⟨?_, ?_, ?_, ?_, fun _ => ⟨?_, ?_⟩, fun hEn => ?_⟩
      · simp [validate_data, hA, withEmployeeCheck, hE]
      · simp [validate_data, hA, withEmployeeCheck, hE]
      · simp [validate_data, hA, withEmployeeCheck, hE]
      · simp [validate_data, hA, withEmployeeCheck, hE]
      · simp [validate_data, hA, withEmployeeCheck, hE]
      · simp [validate_data, hA, withEmployeeCheck, hE]
      · exact Option.noConfusion hEn
  | some i =>
    cases hk : t.header.get? i with
    | none =>
      rw [List.get?_eq_getElem?] at hk
      refine ⟨?_, ?_, ?_, ?_, fun hAn => ?_, fun _ => ?_⟩
      · simp [validate_data, hA, hk]
      · simp [validate_data, hA, hk]
      · simp [validate_data, hA, hk]
      · simp [validate_data, hA, hk]
      · exact Option.noConfusion hAn
      · simp [validate_data, hA, hk]
    | some p =>
      rw [List.get?_eq_getElem?] at hk
      obtain ⟨nm, k⟩ := p
      cases k with
      | cat =>
        refine ⟨?_, ?_, ?_, ?_, fun hAn => ?_, fun _ => ?_⟩
        · simp [validate_data, hA, hk]
        · simp [validate_data, hA, hk]
        · simp [validate_data, hA, hk]
        · simp [validate_data, hA, hk]
        · exact Option.noConfusion hAn
        · simp [validate_data, hA, hk]
      | num =>
        cases hE : colIdx t.header "EmployeeNumber" with
        | none =>
          refine ⟨?_, ?_, ?_, ?_, fun hAn => ?_, fun _ => ?_⟩
          · simp [validate_data, hA, hk, withEmployeeCheck, hE]
          · simp [validate_data, hA, hk, withEmployeeCheck, hE]
          · simp [validate_data, hA, hk, withEmployeeCheck, hE]
          · simp [validate_data, hA, hk, withEmployeeCheck, hE]
          · exact Option.noConfusion hAn
          · simp [validate_data, hA, hk, withEmployeeCheck, hE]
        | some j =>
          refine ⟨?_, ?_, ?_, ?_, fun hAn => ?_, fun hEn => ?_⟩
          · simp [validate_data, hA, hk, withEmployeeCheck, hE]
          · simp [validate_data, hA, hk, withEmployeeCheck, hE]
          · simp [validate_data, hA, hk, withEmployeeCheck, hE]
          · simp [validate_data, hA, hk, withEmployeeCheck, hE]
          · exact Option.noConfusion hAn
          · exact Option.noConfusion hEn

open Churn Churn.DataValidation in
/-- Instantiation of the validator theorem: a failed read yields the
error-only report, and a one-column table without `Age` or
`EmployeeNumber` yields a report with the basic counts, no age or
uniqueness field and no error. -/
theorem validate_data_always_reports_witness :
    validate_data (Except.error "boom") = ⟨none, none, none, none, none, none, some "boom"⟩ ∧
    (validate_data (Except.ok ⟨[("Salary", Kind.num)], [[Cell.num none]]⟩)).total_rows
      = some 1 ∧
    (validate_data (Except.ok ⟨[("Salary", Kind.num)], [[Cell.num none]]⟩)).invalid_age_rows
      = none ∧
    (validate_data (Except.ok ⟨[("Salary", Kind.num)], [[Cell.num none]]⟩)).error = none ∧
    (validate_data (Except.ok ⟨[("Salary", Kind.num)], [[Cell.num none]]⟩)).employee_number_unique
      = none :=
  ⟨(validate_data_always_reports (Except.error "boom")).1 "boom" rfl,
    (validate_data_always_reports (Except.ok ⟨[("Salary", Kind.num)], [[Cell.num none]]⟩)).2
      _ rfl |>.1,
    ((validate_data_always_reports (Except.ok ⟨[("Salary", Kind.num)], [[Cell.num none]]⟩)).2
      _ rfl |>.2.2.2.2.1 (by decide)).1,
    ((validate_data_always_reports (Except.ok ⟨[("Salary", Kind.num)], [[Cell.num none]]⟩)).2
      _ rfl |>.2.2.2.2.1 (by decide)).2,
    (validate_data_always_reports (Except.ok ⟨[("Salary", Kind.num)], [[Cell.num none]]⟩)).2
      _ rfl |>.2.2.2.2.2 (by decide)⟩
